import Mathlib

/-!
# Kat SELF loader (`src/loader.cpp`): a shallow embedding

The loader reads an ELF32 header and its program-header table
(`SElfLibrary::loadEhdrPhdr`), reserves one virtual range and maps every
`PT_LOAD` entry into it (`SElfLibrary::mapSections`), and walks the import
descriptors of the module-info record (`SElfLibrary::loadSelfHeader`).

Conventions of the embedding.

* `unsigned int`, `Elf32_Addr`, `Elf32_Off`, `Elf32_Word` values are naturals
  below `2 ^ 32`; every C operation on them that can wrap carries an explicit
  `% U32`.  `uintptr_t` is 64 bits wide (an LP64 host) and its operations
  carry `% UPTR`.
* The operating system is a pair of answers: what the anonymous reservation
  `mmap` returns, and whether a given `MAP_FIXED` file mapping succeeds.
* What the program prints or stores in its members is kept in the result
  records, so that statements can speak about it.
-/

namespace Kat

/-- Number of values of a C `unsigned int` (and of every 32-bit ELF field). -/
def U32 : Nat := 2 ^ 32

/-- Number of values of a `uintptr_t` on the LP64 host. -/
def UPTR : Nat := 2 ^ 64

/-- Segment type of a loadable program header (`PT_LOAD` of `elf.h`). -/
def PT_LOAD : Nat := 1

/-! ## Page arithmetic (`pageutils.h`) -/

/-- Modelled from the spec: `pageutils.h` is not among the sources.  The spec's
page-floor: the largest multiple of the page size that is not above `x`. -/
def PAGE_START (pageSize x : Nat) : Nat := x - x % pageSize

/-- Modelled from the spec: `pageutils.h` is not among the sources.  The spec's
page offset: the distance of `x` from its page floor. -/
def PAGE_OFFSET (pageSize x : Nat) : Nat := x % pageSize

/-- Modelled from the spec: `pageutils.h` is not among the sources.  The spec's
page-ceiling (`pageAlign`): `x` rounded up to a multiple of the page size. -/
def PAGE_END (pageSize x : Nat) : Nat := PAGE_START pageSize (x + (pageSize - 1))

/-! ## ELF records (`elf.h`) -/

/-- Program header record `Elf32_Phdr`; every field is a 32-bit word. -/
structure Elf32_Phdr where
  p_type : Nat
  p_offset : Nat
  p_vaddr : Nat
  p_paddr : Nat
  p_filesz : Nat
  p_memsz : Nat
  p_flags : Nat
  p_align : Nat
deriving DecidableEq, Inhabited

/-- File header record `Elf32_Ehdr`: sixteen identification bytes, then 16- and
32-bit fields. -/
structure Elf32_Ehdr where
  e_ident : List (Fin 256)
  e_type : Nat
  e_machine : Nat
  e_version : Nat
  e_entry : Nat
  e_phoff : Nat
  e_shoff : Nat
  e_flags : Nat
  e_ehsize : Nat
  e_phentsize : Nat
  e_phnum : Nat
  e_shentsize : Nat
  e_shnum : Nat
  e_shstrndx : Nat
deriving DecidableEq, Inhabited

/-- Every field of the program header fits its 32-bit slot. -/
def Elf32_Phdr.InRange (p : Elf32_Phdr) : Prop :=
  p.p_type < U32 ∧ p.p_offset < U32 ∧ p.p_vaddr < U32 ∧ p.p_paddr < U32 ∧
  p.p_filesz < U32 ∧ p.p_memsz < U32 ∧ p.p_flags < U32 ∧ p.p_align < U32

instance (p : Elf32_Phdr) : Decidable p.InRange := by
  unfold Elf32_Phdr.InRange; infer_instance

/-! ## `SElfLibrary::mapSections` -/

/-- The element `phdrs[i]` of the program-header array. -/
def phdrAt (phdrs : List Elf32_Phdr) (i : Nat) : Elf32_Phdr := phdrs.getD i default

/-- One `MAP_FIXED` file mapping request of the second loop: the index of the
program header it is issued for, the target address, the length, and the file
offset. -/
structure MapReq where
  idx : Nat
  addr : Nat
  len : Nat
  off : Nat
deriving DecidableEq

/-- The operating system as seen by `mapSections`: `reserve n` is the address
the anonymous `PROT_NONE` reservation of `n` bytes returns (`none` is
`MAP_FAILED`), `mapFixed r` tells whether the file mapping `r` succeeds. -/
structure Os where
  reserve : Nat → Option Nat
  mapFixed : MapReq → Bool

/-- Body of the first loop (lines 71-74) for index `i`, on the pair
`(minAddr, maxAddr)`. -/
def scanStep (phdrs : List Elf32_Phdr) (acc : Nat × Nat) (i : Nat) : Nat × Nat :=
  let phdr := phdrAt phdrs i
  if phdr.p_type ≠ PT_LOAD then acc
  else
    let minAddr := if phdr.p_vaddr < acc.1 then phdr.p_vaddr else acc.1
    let maxAddr :=
      if (phdr.p_vaddr + phdr.p_memsz) % U32 > acc.2 then (phdr.p_vaddr + phdr.p_memsz) % U32
      else acc.2
    (minAddr, maxAddr)

/-- The first loop (lines 67-75): `(minAddr, maxAddr)` after scanning the
indices `0 .. phnum - 1`. -/
def scanAddrs (phnum : Nat) (phdrs : List Elf32_Phdr) : Nat × Nat :=
  (List.range phnum).foldl (scanStep phdrs) (0xffffffff, 0)

/-- The `unsigned int spaceRequired` of line 76. -/
def spaceRequired (pageSize minAddr maxAddr : Nat) : Nat :=
  PAGE_END pageSize ((maxAddr + U32 - minAddr) % U32) % U32

/-- The `uintptr_t startAddr` of line 87. -/
def startAddr (minAddr mappingInt : Nat) (phdr : Elf32_Phdr) : Nat :=
  ((phdr.p_vaddr + U32 - minAddr) % U32 + mappingInt) % UPTR

/-- The file mapping request of lines 88-91 for program header `i`. -/
def segmentReq (pageSize minAddr mappingInt i : Nat) (phdr : Elf32_Phdr) : MapReq :=
  { idx := i
    addr := PAGE_START pageSize (startAddr minAddr mappingInt phdr)
    len := PAGE_END pageSize phdr.p_memsz
    off := PAGE_START pageSize phdr.p_offset }

/-- The value stored in `segments[i]` at line 96. -/
def segmentBase (pageSize minAddr mappingInt : Nat) (phdr : Elf32_Phdr) : Nat :=
  (startAddr minAddr mappingInt phdr + PAGE_OFFSET pageSize phdr.p_offset) % UPTR

/-- State of the second loop: the requests issued so far (oldest first) and the
`segments` array. -/
structure MapAcc where
  requests : List MapReq
  segments : List Nat
deriving DecidableEq

/-- The second loop (lines 84-98) over the remaining indices.  The Boolean is
`false` when a file mapping failed and the function returned at line 94. -/
def mapLoop (pageSize : Nat) (phdrs : List Elf32_Phdr) (minAddr mappingInt : Nat)
    (mapFixed : MapReq → Bool) : List Nat → MapAcc → MapAcc × Bool
  | [], acc => (acc, true)
  | i :: rest, acc =>
    let phdr := phdrAt phdrs i
    if phdr.p_type ≠ PT_LOAD then mapLoop pageSize phdrs minAddr mappingInt mapFixed rest acc
    else
      let req := segmentReq pageSize minAddr mappingInt i phdr
      if mapFixed req = false then
        ({ acc with requests := acc.requests ++ [req] }, false)
      else
        mapLoop pageSize phdrs minAddr mappingInt mapFixed rest
          { requests := acc.requests ++ [req]
            segments := acc.segments.set i (segmentBase pageSize minAddr mappingInt phdr) }

/-- What `mapSections` leaves behind: the locals of the scan, the reservation
(`none` when it was refused), the file mappings requested, the `segments`
array (empty while it has not been allocated, `0` is the null pointer) and the
return value. -/
structure MapResult where
  minAddr : Nat
  maxAddr : Nat
  spaceRequired : Nat
  mapping : Option Nat
  requests : List MapReq
  segments : List Nat
  ok : Bool
deriving DecidableEq

/-- The function `SElfLibrary::mapSections` (lines 65-100). -/
def mapSections (pageSize : Nat) (ehdr : Elf32_Ehdr) (phdrs : List Elf32_Phdr) (os : Os) :
    MapResult :=
  let phnum := ehdr.e_phnum
  let mm := scanAddrs phnum phdrs
  let space := spaceRequired pageSize mm.1 mm.2
  match os.reserve space with
  | none =>
    { minAddr := mm.1, maxAddr := mm.2, spaceRequired := space, mapping := none
      requests := [], segments := [], ok := false }
  | some mapping =>
    let r := mapLoop pageSize phdrs mm.1 mapping os.mapFixed (List.range phnum)
      { requests := [], segments := List.replicate phnum 0 }
    { minAddr := mm.1, maxAddr := mm.2, spaceRequired := space, mapping := some mapping
      requests := r.1.requests, segments := r.1.segments, ok := r.2 }

/-! ## `SElfLibrary::loadEhdrPhdr` -/

/-- A byte of a file or of memory. -/
abbrev Byte := Fin 256

/-- The value of a little-endian byte string (the host is little-endian, as the
Vita images are). -/
def leNat : List Byte → Nat
  | [] => 0
  | b :: bs => b.val + 256 * leNat bs

/-- The `n`-byte little-endian field at offset `off` of a record image. -/
def fieldAt (bs : List Byte) (off n : Nat) : Nat := leNat ((bs.drop off).take n)

/-- The value of `sizeof(Elf32_Ehdr)`. -/
def sizeofEhdr : Nat := 52

/-- The value of `sizeof(Elf32_Phdr)`. -/
def sizeofPhdr : Nat := 32

/-- The record `Elf32_Ehdr` that a 52-byte image holds (layout of `elf.h`). -/
def decodeEhdr (bs : List Byte) : Elf32_Ehdr :=
  { e_ident := bs.take 16
    e_type := fieldAt bs 16 2
    e_machine := fieldAt bs 18 2
    e_version := fieldAt bs 20 4
    e_entry := fieldAt bs 24 4
    e_phoff := fieldAt bs 28 4
    e_shoff := fieldAt bs 32 4
    e_flags := fieldAt bs 36 4
    e_ehsize := fieldAt bs 40 2
    e_phentsize := fieldAt bs 42 2
    e_phnum := fieldAt bs 44 2
    e_shentsize := fieldAt bs 46 2
    e_shnum := fieldAt bs 48 2
    e_shstrndx := fieldAt bs 50 2 }

/-- The record `Elf32_Phdr` that a 32-byte image holds (layout of `elf.h`). -/
def decodePhdr (bs : List Byte) : Elf32_Phdr :=
  { p_type := fieldAt bs 0 4
    p_offset := fieldAt bs 4 4
    p_vaddr := fieldAt bs 8 4
    p_paddr := fieldAt bs 12 4
    p_filesz := fieldAt bs 16 4
    p_memsz := fieldAt bs 20 4
    p_flags := fieldAt bs 24 4
    p_align := fieldAt bs 28 4 }

/-- The bytes that `read(fd, buf, n)` delivers when the file position is `pos`:
as many as the file still holds, at most `n`. -/
def readAt (file : List Byte) (pos n : Nat) : List Byte := (file.drop pos).take n

/-- The `unsigned int off` of line 54.  The product `i * e_phentsize` stays
below `2 ^ 32`, the sum with `e_phoff` is taken in `unsigned int`. -/
def phdrOff (ehdr : Elf32_Ehdr) (i : Nat) : Nat := (ehdr.e_phoff + i * ehdr.e_phentsize) % U32

/-- The three ways `loadEhdrPhdr` returns `false`, named after its log lines. -/
inductive LoadError where
  | cannotOpen
  | cannotReadEhdr
  | cannotReadPhdr (i : Nat)
deriving DecidableEq

/-- The loop of lines 53-61 over the remaining indices; `acc` holds the entries
`phdrs[0 .. i - 1]` read so far. -/
def readPhdrs (file : List Byte) (ehdr : Elf32_Ehdr) :
    List Nat → List Elf32_Phdr → Except LoadError (List Elf32_Phdr)
  | [], acc => .ok acc
  | i :: rest, acc =>
    let buf := readAt file (phdrOff ehdr i) sizeofPhdr
    if buf.length ≠ sizeofPhdr then .error (.cannotReadPhdr i)
    else readPhdrs file ehdr rest (acc ++ [decodePhdr buf])

/-- The function `SElfLibrary::loadEhdrPhdr` (lines 40-63).  The argument is
the content of the file at `path`, `none` when `open` fails; `.ok` is the
return value `true` together with the members `ehdr` and `phdrs`. -/
def loadEhdrPhdr (file : Option (List Byte)) :
    Except LoadError (Elf32_Ehdr × List Elf32_Phdr) :=
  match file with
  | none => .error .cannotOpen
  | some bytes =>
    let buf := readAt bytes 0 sizeofEhdr
    if buf.length ≠ sizeofEhdr then .error .cannotReadEhdr
    else
      let ehdr := decodeEhdr buf
      match readPhdrs bytes ehdr (List.range ehdr.e_phnum) [] with
      | .error e => .error e
      | .ok phdrs => .ok (ehdr, phdrs)

/-! ## `SElfLibrary::loadSelfHeader` -/

/-- The mapped memory the walker reads: `byte a` is the content of address `a`
(`none` when the address is not readable), and no address from `limit` on is
readable. -/
structure Mem where
  limit : Nat
  byte : Nat → Option Byte

/-- One byte load; `none` is a fault. -/
def Mem.read (m : Mem) (a : Nat) : Option Byte := if a < m.limit then m.byte a else none

/-- Load of `n` consecutive bytes starting at `a`. -/
def Mem.readBytes (m : Mem) (a : Nat) : Nat → Option (List Byte)
  | 0 => some []
  | n + 1 =>
    match m.read a, m.readBytes (a + 1) n with
    | some b, some bs => some (b :: bs)
    | _, _ => none

/-- Load of a `uint32_t` at address `a`. -/
def Mem.readU32 (m : Mem) (a : Nat) : Option Nat := (m.readBytes a 4).map leNat

/-- The characters of the NUL-terminated string at `a`, read with at most
`fuel` byte loads. -/
def Mem.cstrFrom (m : Mem) : Nat → Nat → Option (List Byte)
  | 0, _ => none
  | fuel + 1, a =>
    match m.read a with
    | none => none
    | some b => if b = 0 then some [] else (m.cstrFrom fuel (a + 1)).map (fun s => b :: s)

/-- The string that `%s` prints for the pointer `a`; `none` when a byte that is
not readable comes before the terminator.  The loads stop at `limit`, so
`limit - a` of them are enough. -/
def Mem.readCStr (m : Mem) (a : Nat) : Option (List Byte) := m.cstrFrom (m.limit - a) a

/-- What `loadSelfHeader` needs of `vita-toolchain/sce-elf.h`, which is not
among the sources: the offsets of `name`, `import_top` and `import_end` in
`sce_module_info_raw`, the size of `sce_module_imports_raw` and the offset of
its `module_name`.  The three fields read are `uint32_t`. -/
structure SceLayout where
  info_name : Nat
  info_import_top : Nat
  info_import_end : Nat
  imports_size : Nat
  imports_module_name : Nat

/-- The layout used in the examples: the offsets of the records of the Vita
toolchain. -/
def vitaLayout : SceLayout :=
  { info_name := 4, info_import_top := 44, info_import_end := 48
    imports_size := 52, imports_module_name := 20 }

/-- How a run of `loadSelfHeader` ends: it returns, it faults on a load, or
the loop is still running when the fuel is spent. -/
inductive Outcome where
  | returned (b : Bool)
  | fault
  | running
deriving DecidableEq

/-- One pass through the body of the import loop: the pointer `import`, the
pointer `name` computed at line 112 and the string logged at line 113. -/
structure ImportVisit where
  desc : Nat
  nameAddr : Nat
  name : List Byte
deriving DecidableEq

/-- The macro `G` (line 102): an offset from the mapped base of segment 0. -/
def G (seg0 b : Nat) : Nat := (seg0 + b) % UPTR

/-- The macro `GG` (line 103): the difference `b - phdrs[0].p_vaddr` is taken in
`uint32_t` and then added to the mapped base of segment 0. -/
def GG (seg0 vaddr0 b : Nat) : Nat := (seg0 + (b + U32 - vaddr0) % U32) % UPTR

/-- The loop of lines 111-114 from the pointer `cur` on, with `fuel` passes
allowed; `acc` holds the passes made so far. -/
def importLoop (L : SceLayout) (m : Mem) (seg0 vaddr0 import_end : Nat) :
    Nat → Nat → List ImportVisit → List ImportVisit × Outcome
  | 0, cur, acc => if cur < import_end then (acc, .running) else (acc, .returned true)
  | fuel + 1, cur, acc =>
    if cur < import_end then
      match m.readU32 (cur + L.imports_module_name) with
      | none => (acc, .fault)
      | some b =>
        let name := GG seg0 vaddr0 b
        match m.readCStr name with
        | none => (acc, .fault)
        | some s =>
          importLoop L m seg0 vaddr0 import_end fuel (cur + L.imports_size)
            (acc ++ [{ desc := cur, nameAddr := name, name := s }])
    else (acc, .returned true)

/-- What `loadSelfHeader` leaves behind: the members `self_info`, `import_top`
and `import_end` (`none` while not assigned), the library name logged at line
107, the passes of the import loop, and how the run ended. -/
structure SelfResult where
  self_info : Option Nat
  libName : Option (List Byte)
  import_top : Option Nat
  import_end : Option Nat
  visits : List ImportVisit
  outcome : Outcome
deriving DecidableEq

/-- The function `SElfLibrary::loadSelfHeader` (lines 105-116).  The loop gets
`import_end - import_top` passes of fuel: every pass moves `import` forward by
the size of a descriptor. -/
def loadSelfHeader (L : SceLayout) (m : Mem) (ehdr : Elf32_Ehdr) (phdrs : List Elf32_Phdr)
    (segments : List Nat) : SelfResult :=
  match segments[0]? with
  | none =>
    { self_info := none, libName := none, import_top := none, import_end := none
      visits := [], outcome := .fault }
  | some seg0 =>
    let self_info := (seg0 + ehdr.e_entry) % UPTR
    match m.readCStr (self_info + L.info_name) with
    | none =>
      { self_info := some self_info, libName := none, import_top := none, import_end := none
        visits := [], outcome := .fault }
    | some nm =>
      match m.readU32 (self_info + L.info_import_top) with
      | none =>
        { self_info := some self_info, libName := some nm, import_top := none
          import_end := none, visits := [], outcome := .fault }
      | some t =>
        let import_top := G seg0 t
        match m.readU32 (self_info + L.info_import_end) with
        | none =>
          { self_info := some self_info, libName := some nm, import_top := some import_top
            import_end := none, visits := [], outcome := .fault }
        | some e =>
          let import_end := G seg0 e
          let r := importLoop L m seg0 (phdrAt phdrs 0).p_vaddr import_end
            (import_end - import_top) import_top []
          { self_info := some self_info, libName := some nm, import_top := some import_top
            import_end := some import_end, visits := r.1, outcome := r.2 }

/-! ## Statements about `mapSections` and sample inputs -/

/-- The extent `[addr, addr + len)` of a file mapping lies inside the range
`[base, base + size)`. -/
def MapReq.Within (r : MapReq) (base size : Nat) : Prop :=
  base ≤ r.addr ∧ r.addr + r.len ≤ base + size

instance (r : MapReq) (base size : Nat) : Decidable (r.Within base size) := by
  unfold MapReq.Within; infer_instance

/-- A `PT_LOAD` program header with the given virtual address, memory size and
file offset (the other fields are zero). -/
def loadPhdr (vaddr memsz offset : Nat) : Elf32_Phdr :=
  { p_type := PT_LOAD, p_offset := offset, p_vaddr := vaddr, p_paddr := 0
    p_filesz := 0, p_memsz := memsz, p_flags := 0, p_align := 0 }

/-- A file header that announces `n` program headers (the other fields are
zero). -/
def ehdrOfCount (n : Nat) : Elf32_Ehdr := { (default : Elf32_Ehdr) with e_phnum := n }

/-- An operating system that grants every reservation at `base` and every file
mapping. -/
def osGranting (base : Nat) : Os := { reserve := fun _ => some base, mapFixed := fun _ => true }

/-! ## Statements about `loadEhdrPhdr` and sample files -/

/-- The file holds a full program-header record at the offset that line 54
computes for entry `i`. -/
def PhdrReadable (file : List Byte) (ehdr : Elf32_Ehdr) (i : Nat) : Prop :=
  phdrOff ehdr i + sizeofPhdr ≤ file.length

instance (file : List Byte) (ehdr : Elf32_Ehdr) (i : Nat) :
    Decidable (PhdrReadable file ehdr i) := by
  unfold PhdrReadable; infer_instance

/-- The `k` low bytes of `n`, least significant first. -/
def encodeLE (n : Nat) : Nat → List Byte
  | 0 => []
  | k + 1 => ⟨n % 256, Nat.mod_lt n (by decide)⟩ :: encodeLE (n / 256) k

/-- The 32-byte image of a program header. -/
def encodePhdr (p : Elf32_Phdr) : List Byte :=
  encodeLE p.p_type 4 ++ encodeLE p.p_offset 4 ++ encodeLE p.p_vaddr 4 ++ encodeLE p.p_paddr 4 ++
  encodeLE p.p_filesz 4 ++ encodeLE p.p_memsz 4 ++ encodeLE p.p_flags 4 ++ encodeLE p.p_align 4

/-- A 52-byte header image with a zero identification that announces `phnum`
program headers of size `phentsize` at file offset `phoff`, with module-info
offset `entry`. -/
def headerImage (entry phoff phentsize phnum : Nat) : List Byte :=
  List.replicate 16 0 ++ encodeLE 0 2 ++ encodeLE 0 2 ++ encodeLE 0 4 ++ encodeLE entry 4 ++
  encodeLE phoff 4 ++ encodeLE 0 4 ++ encodeLE 0 4 ++ encodeLE 52 2 ++ encodeLE phentsize 2 ++
  encodeLE phnum 2 ++ encodeLE 0 2 ++ encodeLE 0 2 ++ encodeLE 0 2

/-- A file with a header and two program headers stored back to back at offset
52, followed by eight spare bytes. -/
def twoPhdrFile : List Byte :=
  headerImage 0 52 32 2 ++ encodePhdr (loadPhdr 0 0x100 0x234) ++
    encodePhdr (loadPhdr 0x1000 0x50 0x1234) ++ List.replicate 8 0

/-- The file `twoPhdrFile` with a header that announces four program headers
of size 24: the reads of entries 0 and 1 overlap, entries 2 and 3 run past the
end of the file. -/
def shortPhdrFile : List Byte :=
  headerImage 0 52 24 4 ++ (twoPhdrFile.drop 52)

/-- The file `twoPhdrFile` with a header that announces two program headers of
size 24: the read of entry 1 starts inside the record of entry 0. -/
def overlapPhdrFile : List Byte :=
  headerImage 0 52 24 2 ++ (twoPhdrFile.drop 52)

/-! ## Sample mapped image for `loadSelfHeader` -/

/-- The memory that holds the bytes `bs` from address `base` on and nothing
else. -/
def memOfBytes (base : Nat) (bs : List Byte) : Mem :=
  { limit := base + bs.length
    byte := fun a => if base ≤ a then bs[a - base]? else none }

/-- The bytes of a NUL-terminated string with the given character codes. -/
def cstr (chars : List Byte) : List Byte := chars ++ [0]

/-- The character codes of `libfoo`. -/
def libfoo : List Byte := [108, 105, 98, 102, 111, 111]

/-- The character codes of `libc`. -/
def libc : List Byte := [108, 105, 98, 99]

/-- The character codes of `libkernel`. -/
def libkernel : List Byte := [108, 105, 98, 107, 101, 114, 110, 101, 108]

/-- A 52-byte module-info record in the layout `vitaLayout`: the name at offset
4 in a 27-byte field, `import_top` at 44 and `import_end` at 48. -/
def moduleInfoImage (name : List Byte) (importTop importEnd : Nat) : List Byte :=
  List.replicate 4 0 ++ (name ++ List.replicate (27 - name.length) 0) ++ List.replicate 13 0 ++
  encodeLE importTop 4 ++ encodeLE importEnd 4

/-- A 52-byte import descriptor in the layout `vitaLayout`: `module_name` at
offset 20. -/
def importImage (moduleName : Nat) : List Byte :=
  List.replicate 20 0 ++ encodeLE moduleName 4 ++ List.replicate 28 0

/-- The data of a segment 0 with file virtual address `0x81000000`: the
module-info record of `libfoo` at offset `0x40`, two import descriptors at
`0x80` and `0xB4`, and the names `libc` and `libkernel` at `0x100` and `0x108`,
which the descriptors give as the virtual addresses `0x81000100` and
`0x81000108`. -/
def sampleSegment : List Byte :=
  List.replicate 0x40 0 ++ moduleInfoImage libfoo 0x80 0xE8 ++ List.replicate 12 0 ++
  importImage 0x81000100 ++ importImage 0x81000108 ++ List.replicate 24 0 ++
  cstr libc ++ List.replicate 3 0 ++ cstr libkernel

/-- The memory with `sampleSegment` mapped at `0x10000`. -/
def sampleMem : Mem := memOfBytes 0x10000 sampleSegment

/-- A file header with the given module-info offset and one program header. -/
def sampleEhdr : Elf32_Ehdr := { (default : Elf32_Ehdr) with e_entry := 0x40, e_phnum := 1 }

/-! ## `SElfLibrary::load` -/

/-- What a run of `load` leaves behind: the result of `loadEhdrPhdr`, the result
of `mapSections` and of `loadSelfHeader` when they were called (`none` when
they were not), and how the run ended. -/
structure LoadTrace where
  hdr : Except LoadError (Elf32_Ehdr × List Elf32_Phdr)
  map : Option MapResult
  self : Option SelfResult
  outcome : Outcome

/-- The function `SElfLibrary::load` (lines 32-38).  `file` is the content of
the file at `path` (`none` when it cannot be opened), `os` answers the `mmap`
calls and `memAfter r` is the memory as the mappings of the run `r` of
`mapSections` leave it. -/
def load (pageSize : Nat) (L : SceLayout) (file : Option (List Byte)) (os : Os)
    (memAfter : MapResult → Mem) : LoadTrace :=
  match loadEhdrPhdr file with
  | .error e => { hdr := .error e, map := none, self := none, outcome := .returned false }
  | .ok (ehdr, phdrs) =>
    let r := mapSections pageSize ehdr phdrs os
    if r.ok = false then
      { hdr := .ok (ehdr, phdrs), map := some r, self := none, outcome := .returned false }
    else
      let s := loadSelfHeader L (memAfter r) ehdr phdrs r.segments
      { hdr := .ok (ehdr, phdrs), map := some r, self := some s
        outcome :=
          match s.outcome with
          | .returned b => if b = false then .returned false else .returned true
          | .fault => .fault
          | .running => .running }

/-! ## Further sample inputs -/

/-- The memory that holds what `a` holds and, where `a` has nothing, what `b`
holds. -/
def memOr (a b : Mem) : Mem :=
  { limit := max a.limit b.limit
    byte := fun x => match a.read x with
      | some v => some v
      | none => b.read x }

/-- A program header that is not `PT_LOAD` (type `PT_NOTE`), all other fields
zero. -/
def notePhdr : Elf32_Phdr := { (default : Elf32_Phdr) with p_type := 4 }

/-- The data of a segment mapped one page above the base of segment 0: the
layout of `sampleSegment`, with the offsets of the descriptor array and the
virtual addresses of the names moved up by `0x1000`. -/
def farSegment : List Byte :=
  List.replicate 0x40 0 ++ moduleInfoImage libfoo 0x1080 0x10E8 ++ List.replicate 12 0 ++
  importImage 0x81001100 ++ importImage 0x81001108 ++ List.replicate 24 0 ++
  cstr libc ++ List.replicate 3 0 ++ cstr libkernel

/-- A segment 0 whose single import descriptor gives the virtual address
`0x81010000` for its name, `0x10000` bytes above the start of the segment. -/
def strayNameSegment : List Byte :=
  List.replicate 0x40 0 ++ moduleInfoImage libfoo 0x80 0xB4 ++ List.replicate 12 0 ++
  importImage 0x81010000

/-- A segment 0 with two import descriptors: the first names `libc` at offset
`0x100`, the second gives the virtual address `0x81010000`. -/
def brokenNameSegment : List Byte :=
  List.replicate 0x40 0 ++ moduleInfoImage libfoo 0x80 0xE8 ++ List.replicate 12 0 ++
  importImage 0x81000100 ++ importImage 0x81010000 ++ List.replicate 24 0 ++ cstr libc

/-- A segment 0 whose module-info record delimits `0x40` bytes of descriptors,
which is not a multiple of the descriptor size 52; the two descriptors that
start in the array name `libc` and `libkernel`. -/
def raggedSegment : List Byte :=
  List.replicate 0x40 0 ++ moduleInfoImage libfoo 0x80 0xC0 ++ List.replicate 12 0 ++
  importImage 0x81000100 ++ importImage 0x81000108 ++ List.replicate 24 0 ++
  cstr libc ++ List.replicate 3 0 ++ cstr libkernel

/-- A 52-byte file whose header announces one program header at file offset 0,
so that the record of entry 0 is read from the header itself. -/
def selfOverlapFile : List Byte := headerImage 0 0 32 1

/-- The file `selfOverlapFile` with the first identification byte set to
`0x7f`. -/
def selfOverlapFileMagic : List Byte := 0x7f :: selfOverlapFile.drop 1

/-- A 52-byte file whose header announces no program header. -/
def noPhdrFile : List Byte := headerImage 0 52 32 0

/-- A file with the header of `twoPhdrFile`, module-info offset `0x40`, and the
single program header of segment 0 of `sampleSegment` at offset 52. -/
def sampleFile : List Byte :=
  headerImage 0x40 52 32 1 ++ encodePhdr (loadPhdr 0x81000000 0x112 0)

/-- A file that announces two program headers, stored at offset 52: a `PT_NOTE`
entry first, then a `PT_LOAD` entry. -/
def noteFirstFile : List Byte :=
  headerImage 0 52 32 2 ++ encodePhdr notePhdr ++ encodePhdr (loadPhdr 0 0x100 0)

/-- A file header with module-info offset `0x1040` and two program headers. -/
def farEhdr : Elf32_Ehdr := { (default : Elf32_Ehdr) with e_entry := 0x1040, e_phnum := 2 }

/-- Two `PT_LOAD` entries one page apart; segment 0 has `0x100` bytes. -/
def farPhdrs : List Elf32_Phdr :=
  [loadPhdr 0x81000000 0x100 0, loadPhdr 0x81001000 0x112 0x1000]

/-- A 52-byte header that announces two program headers of size 32 at file
offset `0xFFFFFFF0`, so that the offset of entry 1 passes `2 ^ 32`. -/
def wrapHeader : List Byte := headerImage 0 0xFFFFFFF0 32 2

/-- The file that holds `hdr` followed by `n` zero bytes. -/
def paddedFile (hdr : List Byte) (n : Nat) : List Byte := hdr ++ List.replicate n 0

/-! ## Page arithmetic lemmas -/

theorem PAGE_START_eq_mul (p x : Nat) : PAGE_START p x = p * (x / p) := by
  unfold PAGE_START
  have h := Nat.div_add_mod x p
  omega

theorem PAGE_START_le (p x : Nat) : PAGE_START p x ≤ x := by
  unfold PAGE_START; omega

theorem PAGE_START_mono (p : Nat) {x y : Nat} (h : x ≤ y) : PAGE_START p x ≤ PAGE_START p y := by
  rw [PAGE_START_eq_mul, PAGE_START_eq_mul]
  exact Nat.mul_le_mul_left p (Nat.div_le_div_right h)

theorem PAGE_START_add_aligned (p d b : Nat) (hb : b % p = 0) :
    PAGE_START p (d + b) = PAGE_START p d + b := by
  unfold PAGE_START
  have h1 : (d + b) % p = d % p := by
    rw [Nat.add_mod, hb, Nat.add_zero, Nat.mod_mod]
  have h2 : d % p ≤ d := Nat.mod_le d p
  rw [h1]; omega

theorem PAGE_START_mod (p x : Nat) : PAGE_START p x % p = 0 := by
  rw [PAGE_START_eq_mul]; exact Nat.mul_mod_right p _

theorem PAGE_END_mod (p x : Nat) : PAGE_END p x % p = 0 := PAGE_START_mod p _

theorem le_PAGE_END (p x : Nat) (hp : 0 < p) : x ≤ PAGE_END p x := by
  unfold PAGE_END PAGE_START
  have h : (x + (p - 1)) % p < p := Nat.mod_lt _ hp
  omega

theorem PAGE_END_lt (p x : Nat) (hp : 0 < p) : PAGE_END p x < x + p := by
  unfold PAGE_END PAGE_START
  omega

theorem PAGE_END_mono (p : Nat) {x y : Nat} (h : x ≤ y) : PAGE_END p x ≤ PAGE_END p y := by
  unfold PAGE_END
  exact PAGE_START_mono p (by omega)

theorem PAGE_START_add_PAGE_END_le (p d m : Nat) :
    PAGE_START p d + PAGE_END p m ≤ PAGE_END p (d + m) := by
  have hd : d = d % p + PAGE_START p d := by
    have := PAGE_START_le p d
    unfold PAGE_START at *
    have := Nat.mod_le d p
    omega
  have h1 : PAGE_END p (d + m) = PAGE_START p (d % p + m + (p - 1)) + PAGE_START p d := by
    unfold PAGE_END
    rw [← PAGE_START_add_aligned _ _ _ (PAGE_START_mod p d)]
    congr 1
    omega
  rw [h1]
  have h2 : PAGE_END p m ≤ PAGE_START p (d % p + m + (p - 1)) := by
    unfold PAGE_END
    exact PAGE_START_mono p (by omega)
  omega

/-! ### The scan of `mapSections` -/

theorem scanStep_fst_le (phdrs : List Elf32_Phdr) (acc : Nat × Nat) (i : Nat) :
    (scanStep phdrs acc i).1 ≤ acc.1 := by
  unfold scanStep
  dsimp only
  split
  · exact Nat.le_refl _
  · dsimp only
    split <;> omega

theorem scanStep_snd_ge (phdrs : List Elf32_Phdr) (acc : Nat × Nat) (i : Nat) :
    acc.2 ≤ (scanStep phdrs acc i).2 := by
  unfold scanStep
  dsimp only
  split
  · exact Nat.le_refl _
  · dsimp only
    split <;> omega

theorem scanStep_load (phdrs : List Elf32_Phdr) (acc : Nat × Nat) (i : Nat)
    (h : (phdrAt phdrs i).p_type = PT_LOAD) :
    ((scanStep phdrs acc i).1 = acc.1 ∨ (scanStep phdrs acc i).1 = (phdrAt phdrs i).p_vaddr) ∧
    (scanStep phdrs acc i).1 ≤ (phdrAt phdrs i).p_vaddr ∧
    ((scanStep phdrs acc i).2 = acc.2 ∨
      (scanStep phdrs acc i).2 = ((phdrAt phdrs i).p_vaddr + (phdrAt phdrs i).p_memsz) % U32) ∧
    ((phdrAt phdrs i).p_vaddr + (phdrAt phdrs i).p_memsz) % U32 ≤ (scanStep phdrs acc i).2 := by
  unfold scanStep
  simp only [h, ne_eq, not_true_eq_false, if_false]
  refine ⟨?_, ?_, ?_, ?_⟩
  · split <;> simp
  · split <;> omega
  · split <;> simp
  · split <;> omega

theorem scanStep_skip (phdrs : List Elf32_Phdr) (acc : Nat × Nat) (i : Nat)
    (h : (phdrAt phdrs i).p_type ≠ PT_LOAD) : scanStep phdrs acc i = acc := by
  unfold scanStep
  simp [h]

theorem foldl_scan_mono (phdrs : List Elf32_Phdr) (l : List Nat) (acc : Nat × Nat) :
    (l.foldl (scanStep phdrs) acc).1 ≤ acc.1 ∧ acc.2 ≤ (l.foldl (scanStep phdrs) acc).2 := by
  induction l generalizing acc with
  | nil => simp
  | cons i l ih =>
    simp only [List.foldl_cons]
    have h1 := scanStep_fst_le phdrs acc i
    have h2 := scanStep_snd_ge phdrs acc i
    have h3 := ih (scanStep phdrs acc i)
    omega

theorem foldl_scan_bound (phdrs : List Elf32_Phdr) (l : List Nat) (acc : Nat × Nat)
    (i : Nat) (hi : i ∈ l) (h : (phdrAt phdrs i).p_type = PT_LOAD) :
    (l.foldl (scanStep phdrs) acc).1 ≤ (phdrAt phdrs i).p_vaddr ∧
    ((phdrAt phdrs i).p_vaddr + (phdrAt phdrs i).p_memsz) % U32 ≤
      (l.foldl (scanStep phdrs) acc).2 := by
  induction l generalizing acc with
  | nil => simp at hi
  | cons j l ih =>
    simp only [List.foldl_cons]
    rcases List.mem_cons.mp hi with rfl | hmem
    · have h1 := scanStep_load phdrs acc i h
      have h2 := foldl_scan_mono phdrs l (scanStep phdrs acc i)
      omega
    · exact ih (scanStep phdrs acc j) hmem

theorem foldl_scan_attained (phdrs : List Elf32_Phdr) (l : List Nat) (acc : Nat × Nat) :
    ((l.foldl (scanStep phdrs) acc).1 = acc.1 ∨
      ∃ i ∈ l, (phdrAt phdrs i).p_type = PT_LOAD ∧
        (l.foldl (scanStep phdrs) acc).1 = (phdrAt phdrs i).p_vaddr) ∧
    ((l.foldl (scanStep phdrs) acc).2 = acc.2 ∨
      ∃ i ∈ l, (phdrAt phdrs i).p_type = PT_LOAD ∧
        (l.foldl (scanStep phdrs) acc).2 =
          ((phdrAt phdrs i).p_vaddr + (phdrAt phdrs i).p_memsz) % U32) := by
  induction l generalizing acc with
  | nil => simp
  | cons j l ih =>
    simp only [List.foldl_cons]
    have h3 := ih (scanStep phdrs acc j)
    by_cases hj : (phdrAt phdrs j).p_type = PT_LOAD
    · have h1 := scanStep_load phdrs acc j hj
      constructor
      · rcases h3.1 with h | ⟨i, hi, hl, he⟩
        · rcases h1.1 with h' | h'
          · left; rw [h, h']
          · right; exact ⟨j, List.mem_cons_self _ _, hj, by rw [h, h']⟩
        · right; exact ⟨i, List.mem_cons_of_mem _ hi, hl, he⟩
      · rcases h3.2 with h | ⟨i, hi, hl, he⟩
        · rcases h1.2.2.1 with h' | h'
          · left; rw [h, h']
          · right; exact ⟨j, List.mem_cons_self _ _, hj, by rw [h, h']⟩
        · right; exact ⟨i, List.mem_cons_of_mem _ hi, hl, he⟩
    · rw [scanStep_skip phdrs acc j hj] at h3 ⊢
      constructor
      · rcases h3.1 with h | ⟨i, hi, hl, he⟩
        · left; exact h
        · right; exact ⟨i, List.mem_cons_of_mem _ hi, hl, he⟩
      · rcases h3.2 with h | ⟨i, hi, hl, he⟩
        · left; exact h
        · right; exact ⟨i, List.mem_cons_of_mem _ hi, hl, he⟩

/-- Every `PT_LOAD` entry lies between the `minAddr` and the `maxAddr` that the
scan computes. -/
theorem scanAddrs_bound (n : Nat) (phdrs : List Elf32_Phdr) (i : Nat) (hi : i < n)
    (h : (phdrAt phdrs i).p_type = PT_LOAD) :
    (scanAddrs n phdrs).1 ≤ (phdrAt phdrs i).p_vaddr ∧
    ((phdrAt phdrs i).p_vaddr + (phdrAt phdrs i).p_memsz) % U32 ≤ (scanAddrs n phdrs).2 :=
  foldl_scan_bound phdrs (List.range n) _ i (List.mem_range.mpr hi) h

/-! ### The mapping loop of `mapSections` -/

theorem mapLoop_requests (pageSize : Nat) (phdrs : List Elf32_Phdr) (minAddr mappingInt : Nat)
    (mapFixed : MapReq → Bool) (l : List Nat) (acc : MapAcc) (r : MapReq)
    (hr : r ∈ (mapLoop pageSize phdrs minAddr mappingInt mapFixed l acc).1.requests) :
    r ∈ acc.requests ∨
    ∃ i ∈ l, (phdrAt phdrs i).p_type = PT_LOAD ∧
      r = segmentReq pageSize minAddr mappingInt i (phdrAt phdrs i) := by
  induction l generalizing acc with
  | nil => left; simpa [mapLoop] using hr
  | cons j l ih =>
    unfold mapLoop at hr
    dsimp only at hr
    by_cases hj : (phdrAt phdrs j).p_type = PT_LOAD
    · simp only [hj, ne_eq, not_true_eq_false, if_false] at hr
      split at hr
      · simp only [List.mem_append, List.mem_singleton] at hr
        rcases hr with h | h
        · left; exact h
        · right; exact ⟨j, List.mem_cons_self _ _, hj, h⟩
      · rcases ih _ hr with h | ⟨i, hi, hl, he⟩
        · simp only [List.mem_append, List.mem_singleton] at h
          rcases h with h | h
          · left; exact h
          · right; exact ⟨j, List.mem_cons_self _ _, hj, h⟩
        · right; exact ⟨i, List.mem_cons_of_mem _ hi, hl, he⟩
    · simp only [hj, ne_eq, not_false_eq_true, if_true] at hr
      rcases ih _ hr with h | ⟨i, hi, hl, he⟩
      · left; exact h
      · right; exact ⟨i, List.mem_cons_of_mem _ hi, hl, he⟩

theorem mapSections_requests (pageSize : Nat) (ehdr : Elf32_Ehdr) (phdrs : List Elf32_Phdr)
    (os : Os) (base : Nat) (hbase : (mapSections pageSize ehdr phdrs os).mapping = some base)
    (r : MapReq) (hr : r ∈ (mapSections pageSize ehdr phdrs os).requests) :
    ∃ i, i < ehdr.e_phnum ∧ (phdrAt phdrs i).p_type = PT_LOAD ∧
      r = segmentReq pageSize (scanAddrs ehdr.e_phnum phdrs).1 base i (phdrAt phdrs i) := by
  unfold mapSections at hr hbase
  dsimp only at hr hbase
  split at hr
  · simp at hr
  · rename_i mapping hres
    rw [hres] at hbase
    simp only [Option.some.injEq] at hbase
    subst hbase
    rcases mapLoop_requests _ _ _ _ _ _ _ r hr with h | ⟨i, hi, hl, he⟩
    · simp at h
    · exact ⟨i, List.mem_range.mp hi, hl, he⟩

theorem mapLoop_cons_skip (pageSize : Nat) (phdrs : List Elf32_Phdr) (minAddr mappingInt : Nat)
    (mapFixed : MapReq → Bool) (i : Nat) (rest : List Nat) (acc : MapAcc)
    (h : (phdrAt phdrs i).p_type ≠ PT_LOAD) :
    mapLoop pageSize phdrs minAddr mappingInt mapFixed (i :: rest) acc =
      mapLoop pageSize phdrs minAddr mappingInt mapFixed rest acc := by
  rw [mapLoop]
  simp [h]

theorem mapLoop_cons_fail (pageSize : Nat) (phdrs : List Elf32_Phdr) (minAddr mappingInt : Nat)
    (mapFixed : MapReq → Bool) (i : Nat) (rest : List Nat) (acc : MapAcc)
    (h : (phdrAt phdrs i).p_type = PT_LOAD)
    (hf : mapFixed (segmentReq pageSize minAddr mappingInt i (phdrAt phdrs i)) = false) :
    mapLoop pageSize phdrs minAddr mappingInt mapFixed (i :: rest) acc =
      ({ acc with requests := acc.requests ++
          [segmentReq pageSize minAddr mappingInt i (phdrAt phdrs i)] }, false) := by
  rw [mapLoop]
  simp [h, hf]

theorem mapLoop_cons_load (pageSize : Nat) (phdrs : List Elf32_Phdr) (minAddr mappingInt : Nat)
    (mapFixed : MapReq → Bool) (i : Nat) (rest : List Nat) (acc : MapAcc)
    (h : (phdrAt phdrs i).p_type = PT_LOAD)
    (hf : mapFixed (segmentReq pageSize minAddr mappingInt i (phdrAt phdrs i)) = true) :
    mapLoop pageSize phdrs minAddr mappingInt mapFixed (i :: rest) acc =
      mapLoop pageSize phdrs minAddr mappingInt mapFixed rest
        { requests := acc.requests ++ [segmentReq pageSize minAddr mappingInt i (phdrAt phdrs i)]
          segments := acc.segments.set i
            (segmentBase pageSize minAddr mappingInt (phdrAt phdrs i)) } := by
  rw [mapLoop]
  simp [h, hf]

/-! ## Claims about `mapSections` -/

theorem mapSections_of_reserve (pageSize : Nat) (ehdr : Elf32_Ehdr) (phdrs : List Elf32_Phdr)
    (os : Os) :
    (mapSections pageSize ehdr phdrs os).minAddr = (scanAddrs ehdr.e_phnum phdrs).1 ∧
    (mapSections pageSize ehdr phdrs os).maxAddr = (scanAddrs ehdr.e_phnum phdrs).2 ∧
    (mapSections pageSize ehdr phdrs os).spaceRequired =
      spaceRequired pageSize (scanAddrs ehdr.e_phnum phdrs).1 (scanAddrs ehdr.e_phnum phdrs).2 ∧
    (mapSections pageSize ehdr phdrs os).mapping =
      os.reserve
        (spaceRequired pageSize (scanAddrs ehdr.e_phnum phdrs).1 (scanAddrs ehdr.e_phnum phdrs).2) := by
  unfold mapSections
  dsimp only
  split <;> simp_all

/-- C1 (failing input): on a table of two `PT_LOAD` entries, the second at
virtual address `0x1010` with file offset `0x1010`, `mapSections` succeeds on
the page-aligned reservation base `0x10000` and records `segments[1] = 0x11020`,
whose page offset `0x20` differs from the page offset `0x10` of the file
offset. -/
theorem mapSections_alignment_broken :
    (mapSections 4096 (ehdrOfCount 2) [loadPhdr 0 0x100 0, loadPhdr 0x1010 0x50 0x1010]
      (osGranting 0x10000)).ok = true ∧
    (mapSections 4096 (ehdrOfCount 2) [loadPhdr 0 0x100 0, loadPhdr 0x1010 0x50 0x1010]
      (osGranting 0x10000)).segments = [0x10000, 0x11020] ∧
    0x11020 % 4096 = 0x20 ∧ (loadPhdr 0x1010 0x50 0x1010).p_offset % 4096 = 0x10 := by
  decide

/-- C2 (counterexample): with entries `(vaddr 0, memsz 0x1000)` and
`(vaddr 0x1000, memsz 0xFFFFF000)` the sum of the second entry wraps to `0` in
`unsigned int`, so the scan yields `maxAddr = 0x1000` and one page is reserved
at the aligned base `0x10000`, while the mapping requested for entry 1 starts
at `0x11000`, past the end of the reservation. -/
theorem mapSections_containment_counterexample :
    (0x10000 % 4096 = 0 ∧
      (mapSections 4096 (ehdrOfCount 2) [loadPhdr 0 0x1000 0, loadPhdr 0x1000 0xFFFFF000 0x1000]
        (osGranting 0x10000)).mapping = some 0x10000 ∧
      (mapSections 4096 (ehdrOfCount 2) [loadPhdr 0 0x1000 0, loadPhdr 0x1000 0xFFFFF000 0x1000]
        (osGranting 0x10000)).spaceRequired = 0x1000) ∧
    ∃ r ∈ (mapSections 4096 (ehdrOfCount 2)
        [loadPhdr 0 0x1000 0, loadPhdr 0x1000 0xFFFFF000 0x1000] (osGranting 0x10000)).requests,
      r.idx = 1 ∧ r.addr = 0x11000 ∧ r.len = 0xFFFFF000 ∧
      ¬ r.Within 0x10000
        (mapSections 4096 (ehdrOfCount 2) [loadPhdr 0 0x1000 0, loadPhdr 0x1000 0xFFFFF000 0x1000]
          (osGranting 0x10000)).spaceRequired := by
  decide

/-- C2 (amended): when no `PT_LOAD` entry's `p_vaddr + p_memsz` reaches `2 ^ 32`,
the page-rounded span `maxAddr - minAddr` stays below `2 ^ 32`, and the
reservation granted at the page-aligned `base` ends below `2 ^ 64`, every file
mapping that `mapSections` requests lies inside
`[base, base + spaceRequired)`. -/
theorem mapSections_containment (pageSize : Nat) (ehdr : Elf32_Ehdr) (phdrs : List Elf32_Phdr)
    (os : Os) (base : Nat) (hp : 0 < pageSize)
    (hsum : ∀ i, i < ehdr.e_phnum → (phdrAt phdrs i).p_type = PT_LOAD →
      (phdrAt phdrs i).p_vaddr + (phdrAt phdrs i).p_memsz < U32)
    (hspan : PAGE_END pageSize ((mapSections pageSize ehdr phdrs os).maxAddr -
      (mapSections pageSize ehdr phdrs os).minAddr) < U32)
    (hmap : (mapSections pageSize ehdr phdrs os).mapping = some base)
    (halign : base % pageSize = 0)
    (hfit : base + (mapSections pageSize ehdr phdrs os).spaceRequired < UPTR) :
    ∀ r ∈ (mapSections pageSize ehdr phdrs os).requests,
      r.Within base (mapSections pageSize ehdr phdrs os).spaceRequired := by
  intro r hr
  obtain ⟨hmin, hmax, hspace, -⟩ := mapSections_of_reserve pageSize ehdr phdrs os
  obtain ⟨i, hi, hload, hreq⟩ := mapSections_requests pageSize ehdr phdrs os base hmap r hr
  rw [hspace] at hfit ⊢
  rw [hmin, hmax] at hspan
  have hb := scanAddrs_bound ehdr.e_phnum phdrs i hi hload
  have hs := hsum i hi hload
  rw [Nat.mod_eq_of_lt hs] at hb
  subst hreq
  unfold MapReq.Within segmentReq startAddr
  dsimp only
  unfold spaceRequired at hfit ⊢
  generalize (scanAddrs ehdr.e_phnum phdrs).1 = lo at *
  generalize (scanAddrs ehdr.e_phnum phdrs).2 = top at *
  generalize (phdrAt phdrs i).p_vaddr = v at *
  generalize (phdrAt phdrs i).p_memsz = m at *
  have hU : U32 = 4294967296 := rfl
  have hge := le_PAGE_END pageSize (top - lo) hp
  have hspan1 : (top + U32 - lo) % U32 = top - lo := by
    have h1 : top + U32 - lo = (top - lo) + U32 := by omega
    rw [h1, Nat.add_mod_right]
    exact Nat.mod_eq_of_lt (by omega)
  have hd : (v + U32 - lo) % U32 = v - lo := by
    have h1 : v + U32 - lo = (v - lo) + U32 := by omega
    rw [h1, Nat.add_mod_right]
    exact Nat.mod_eq_of_lt (by omega)
  rw [hspan1, Nat.mod_eq_of_lt hspan] at hfit ⊢
  rw [hd, Nat.mod_eq_of_lt (by omega : v - lo + base < UPTR),
    PAGE_START_add_aligned pageSize (v - lo) base halign]
  have h1 := PAGE_START_add_PAGE_END_le pageSize (v - lo) m
  have h2 : PAGE_END pageSize (v - lo + m) ≤ PAGE_END pageSize (top - lo) :=
    PAGE_END_mono pageSize (by omega)
  omega

/-- C2 (witness): the amended containment on two `PT_LOAD` entries at `0x0` and
`0x1000`, pages of 4096 bytes, reservation base `0x10000`: the mapping requested
for entry 1, one page at `0x11000`, lies inside the two pages reserved. -/
theorem mapSections_containment_witness :
    (mapSections 4096 (ehdrOfCount 2) [loadPhdr 0 0x100 0x234, loadPhdr 0x1000 0x50 0x1234]
      (osGranting 0x10000)).spaceRequired = 0x2000 ∧
    ({ idx := 1, addr := 0x11000, len := 0x1000, off := 0x1000 } : MapReq).Within 0x10000
      (mapSections 4096 (ehdrOfCount 2) [loadPhdr 0 0x100 0x234, loadPhdr 0x1000 0x50 0x1234]
        (osGranting 0x10000)).spaceRequired :=
  ⟨by decide,
    mapSections_containment 4096 (ehdrOfCount 2)
      [loadPhdr 0 0x100 0x234, loadPhdr 0x1000 0x50 0x1234]
      (osGranting 0x10000) 0x10000 (by decide) (by decide) (by decide) (by decide) (by decide)
      (by decide) { idx := 1, addr := 0x11000, len := 0x1000, off := 0x1000 } (by decide)⟩

/-- C3 (failing input): for the second of two `PT_LOAD` entries, at virtual
address `0x1010` with file offset `0x2010`, the intended base is `0x11010`; the
spec's value `pageFloor(base) + pageOffset(p_offset)` is `0x11010`, the address
where the mapping requested at `0x11000` from file offset `0x2000` puts the file
byte `0x2010`, but `mapSections` records `segments[1] = 0x11020`. -/
theorem mapSections_segment_base_off_page :
    (mapSections 4096 (ehdrOfCount 2) [loadPhdr 0 0x100 0, loadPhdr 0x1010 0x50 0x2010]
      (osGranting 0x10000)).ok = true ∧
    (mapSections 4096 (ehdrOfCount 2) [loadPhdr 0 0x100 0, loadPhdr 0x1010 0x50 0x2010]
      (osGranting 0x10000)).requests = [⟨0, 0x10000, 0x1000, 0⟩, ⟨1, 0x11000, 0x1000, 0x2000⟩] ∧
    (mapSections 4096 (ehdrOfCount 2) [loadPhdr 0 0x100 0, loadPhdr 0x1010 0x50 0x2010]
      (osGranting 0x10000)).segments.getD 1 0 = 0x11020 ∧
    PAGE_START 4096 (startAddr 0 0x10000 (loadPhdr 0x1010 0x50 0x2010)) +
      PAGE_OFFSET 4096 (loadPhdr 0x1010 0x50 0x2010).p_offset = 0x11010 := by
  decide

/-- C4 (counterexample): for the single `PT_LOAD` entry `(vaddr 0, memsz
0xFFFFFFFF)` the scan yields `minAddr = 0` and `maxAddr = 0xFFFFFFFF`; the
page round-up of their difference is `2 ^ 32`, which `unsigned int
spaceRequired` holds as `0`, so the size reserved is neither that round-up nor
at least `maxAddr - minAddr`. -/
theorem mapSections_scan_counterexample :
    (mapSections 4096 (ehdrOfCount 1) [loadPhdr 0 0xFFFFFFFF 0] (osGranting 0x10000)).minAddr = 0 ∧
    (mapSections 4096 (ehdrOfCount 1) [loadPhdr 0 0xFFFFFFFF 0] (osGranting 0x10000)).maxAddr
      = 0xFFFFFFFF ∧
    PAGE_END 4096 (0xFFFFFFFF - 0) = 0x100000000 ∧
    (mapSections 4096 (ehdrOfCount 1) [loadPhdr 0 0xFFFFFFFF 0]
      (osGranting 0x10000)).spaceRequired = 0 ∧
    ¬ ((mapSections 4096 (ehdrOfCount 1) [loadPhdr 0 0xFFFFFFFF 0] (osGranting 0x10000)).maxAddr -
        (mapSections 4096 (ehdrOfCount 1) [loadPhdr 0 0xFFFFFFFF 0] (osGranting 0x10000)).minAddr ≤
      (mapSections 4096 (ehdrOfCount 1) [loadPhdr 0 0xFFFFFFFF 0]
        (osGranting 0x10000)).spaceRequired) := by
  decide

/-- C4 (amended): for a table with at least one `PT_LOAD` entry, the scan of
`mapSections` yields the least `p_vaddr` as `minAddr` and the greatest
`p_vaddr + p_memsz`, the sum taken in `unsigned int`, as `maxAddr` over the
`PT_LOAD` entries; and when the `unsigned int` difference `maxAddr - minAddr`
rounded up to a multiple of the page size is below `2 ^ 32`, the size reserved
is that rounded value, a multiple of the page size that is at least the
difference and less than one page above it. -/
theorem mapSections_scan (pageSize : Nat) (ehdr : Elf32_Ehdr) (phdrs : List Elf32_Phdr)
    (os : Os) (hp : 0 < pageSize)
    (hload : ∃ i, i < ehdr.e_phnum ∧ (phdrAt phdrs i).p_type = PT_LOAD)
    (hrange : ∀ i, i < ehdr.e_phnum → (phdrAt phdrs i).InRange)
    (hspan : PAGE_END pageSize (((mapSections pageSize ehdr phdrs os).maxAddr + U32 -
      (mapSections pageSize ehdr phdrs os).minAddr) % U32) < U32) :
    (∃ i, i < ehdr.e_phnum ∧ (phdrAt phdrs i).p_type = PT_LOAD ∧
      (mapSections pageSize ehdr phdrs os).minAddr = (phdrAt phdrs i).p_vaddr) ∧
    (∀ i, i < ehdr.e_phnum → (phdrAt phdrs i).p_type = PT_LOAD →
      (mapSections pageSize ehdr phdrs os).minAddr ≤ (phdrAt phdrs i).p_vaddr) ∧
    (∃ i, i < ehdr.e_phnum ∧ (phdrAt phdrs i).p_type = PT_LOAD ∧
      (mapSections pageSize ehdr phdrs os).maxAddr =
        ((phdrAt phdrs i).p_vaddr + (phdrAt phdrs i).p_memsz) % U32) ∧
    (∀ i, i < ehdr.e_phnum → (phdrAt phdrs i).p_type = PT_LOAD →
      ((phdrAt phdrs i).p_vaddr + (phdrAt phdrs i).p_memsz) % U32 ≤
        (mapSections pageSize ehdr phdrs os).maxAddr) ∧
    (mapSections pageSize ehdr phdrs os).spaceRequired =
      PAGE_END pageSize (((mapSections pageSize ehdr phdrs os).maxAddr + U32 -
        (mapSections pageSize ehdr phdrs os).minAddr) % U32) ∧
    (mapSections pageSize ehdr phdrs os).spaceRequired % pageSize = 0 ∧
    ((mapSections pageSize ehdr phdrs os).maxAddr + U32 -
        (mapSections pageSize ehdr phdrs os).minAddr) % U32 ≤
      (mapSections pageSize ehdr phdrs os).spaceRequired ∧
    (mapSections pageSize ehdr phdrs os).spaceRequired <
      ((mapSections pageSize ehdr phdrs os).maxAddr + U32 -
        (mapSections pageSize ehdr phdrs os).minAddr) % U32 + pageSize := by
  obtain ⟨hmin, hmax, hspace, -⟩ := mapSections_of_reserve pageSize ehdr phdrs os
  rw [hmin, hmax] at hspan
  rw [hmin, hmax, hspace]
  have hU : U32 = 4294967296 := rfl
  have hbound := scanAddrs_bound ehdr.e_phnum phdrs
  have hatt := foldl_scan_attained phdrs (List.range ehdr.e_phnum) (0xffffffff, 0)
  change (((scanAddrs ehdr.e_phnum phdrs).1 = 0xffffffff ∨ _) ∧
    ((scanAddrs ehdr.e_phnum phdrs).2 = 0 ∨ _)) at hatt
  obtain ⟨k, hk, hkl⟩ := hload
  have hkb := hbound k hk hkl
  have hkr : (phdrAt phdrs k).p_vaddr < U32 := (hrange k hk).2.2.1
  have hminatt : ∃ i, i < ehdr.e_phnum ∧ (phdrAt phdrs i).p_type = PT_LOAD ∧
      (scanAddrs ehdr.e_phnum phdrs).1 = (phdrAt phdrs i).p_vaddr := by
    rcases hatt.1 with h | ⟨i, hi, hl, he⟩
    · exact ⟨k, hk, hkl, by omega⟩
    · exact ⟨i, List.mem_range.mp hi, hl, he⟩
  have hmaxatt : ∃ i, i < ehdr.e_phnum ∧ (phdrAt phdrs i).p_type = PT_LOAD ∧
      (scanAddrs ehdr.e_phnum phdrs).2 =
        ((phdrAt phdrs i).p_vaddr + (phdrAt phdrs i).p_memsz) % U32 := by
    rcases hatt.2 with h | ⟨i, hi, hl, he⟩
    · exact ⟨k, hk, hkl, by omega⟩
    · exact ⟨i, List.mem_range.mp hi, hl, he⟩
  have hsp : spaceRequired pageSize (scanAddrs ehdr.e_phnum phdrs).1
      (scanAddrs ehdr.e_phnum phdrs).2 =
      PAGE_END pageSize (((scanAddrs ehdr.e_phnum phdrs).2 + U32 -
        (scanAddrs ehdr.e_phnum phdrs).1) % U32) := by
    unfold spaceRequired
    exact Nat.mod_eq_of_lt hspan
  rw [hsp]
  exact ⟨hminatt, fun i hi hl => (hbound i hi hl).1, hmaxatt, fun i hi hl => (hbound i hi hl).2,
    rfl, PAGE_END_mod pageSize _, le_PAGE_END pageSize _ hp, PAGE_END_lt pageSize _ hp⟩

/-- C4 (witness): the scan on three entries, the middle one not `PT_LOAD`. -/
theorem mapSections_scan_witness :
    (mapSections 4096 (ehdrOfCount 3)
      [loadPhdr 0x2000 0x100 0, default, loadPhdr 0x1000 0x50 0x1000] (osGranting 0x10000)).minAddr
      = 0x1000 ∧
    (mapSections 4096 (ehdrOfCount 3)
      [loadPhdr 0x2000 0x100 0, default, loadPhdr 0x1000 0x50 0x1000] (osGranting 0x10000)).maxAddr
      = 0x2100 ∧
    (mapSections 4096 (ehdrOfCount 3)
      [loadPhdr 0x2000 0x100 0, default, loadPhdr 0x1000 0x50 0x1000]
      (osGranting 0x10000)).spaceRequired = 0x2000 ∧
    (mapSections 4096 (ehdrOfCount 3)
      [loadPhdr 0x2000 0x100 0, default, loadPhdr 0x1000 0x50 0x1000]
      (osGranting 0x10000)).spaceRequired =
      PAGE_END 4096 (((mapSections 4096 (ehdrOfCount 3)
        [loadPhdr 0x2000 0x100 0, default, loadPhdr 0x1000 0x50 0x1000]
        (osGranting 0x10000)).maxAddr + U32 -
        (mapSections 4096 (ehdrOfCount 3)
          [loadPhdr 0x2000 0x100 0, default, loadPhdr 0x1000 0x50 0x1000]
          (osGranting 0x10000)).minAddr) % U32) :=
  ⟨by decide, by decide, by decide,
    (mapSections_scan 4096 (ehdrOfCount 3)
      [loadPhdr 0x2000 0x100 0, default, loadPhdr 0x1000 0x50 0x1000] (osGranting 0x10000)
      (by decide) ⟨0, by decide, by decide⟩ (by decide) (by decide)).2.2.2.2.1⟩

/-- C5: on a table of exactly two `PT_LOAD` entries, `(vaddr 0x0, memsz 0x100)`
and `(vaddr 0x1000, memsz 0x50)`, with a page size that divides `0x1000`, a
reservation granted at a page-aligned `base` that ends within the address space
and a successful mapping of entry 0, `mapSections` reserves `pageAlign(0x1050)`
bytes and requests the mapping of entry 1 at `base + 0x1000` with length
`pageCeil(0x50)` and file offset `pageFloor(p_offset)`. -/
theorem mapSections_two_segment_scenario (pageSize : Nat) (ehdr : Elf32_Ehdr)
    (p0 p1 : Elf32_Phdr) (os : Os) (base : Nat)
    (hp : 0 < pageSize) (hdvd : 0x1000 % pageSize = 0)
    (hnum : ehdr.e_phnum = 2)
    (h0 : p0.p_type = PT_LOAD ∧ p0.p_vaddr = 0x0 ∧ p0.p_memsz = 0x100)
    (h1 : p1.p_type = PT_LOAD ∧ p1.p_vaddr = 0x1000 ∧ p1.p_memsz = 0x50)
    (hmap : (mapSections pageSize ehdr [p0, p1] os).mapping = some base)
    (halign : base % pageSize = 0)
    (hfit : base + (mapSections pageSize ehdr [p0, p1] os).spaceRequired ≤ UPTR)
    (hfirst : ∀ r : MapReq, r.idx = 0 → os.mapFixed r = true) :
    PAGE_END pageSize 0x1050 ≤ (mapSections pageSize ehdr [p0, p1] os).spaceRequired ∧
    (mapSections pageSize ehdr [p0, p1] os).requests =
      [{ idx := 0, addr := base, len := PAGE_END pageSize 0x100,
         off := PAGE_START pageSize p0.p_offset },
       { idx := 1, addr := base + 0x1000, len := PAGE_END pageSize 0x50,
         off := PAGE_START pageSize p1.p_offset }] := by
  obtain ⟨t0, v0, m0⟩ := h0
  obtain ⟨t1, v1, m1⟩ := h1
  have hU : U32 = 4294967296 := rfl
  have hP : UPTR = 18446744073709551616 := rfl
  have hscan : scanAddrs ehdr.e_phnum [p0, p1] = (0, 0x1050) := by
    rw [hnum]
    simp [scanAddrs, List.range_succ, scanStep, phdrAt, t0, t1, v0, v1, m0, m1, U32]
  have hle : pageSize ≤ 0x1000 := Nat.le_of_dvd (by norm_num) (Nat.dvd_of_mod_eq_zero hdvd)
  have hsp : spaceRequired pageSize 0 0x1050 = PAGE_END pageSize 0x1050 := by
    unfold spaceRequired
    have hlt := PAGE_END_lt pageSize 0x1050 hp
    rw [show (0x1050 + U32 - 0) % U32 = 0x1050 from by rw [hU]]
    exact Nat.mod_eq_of_lt (by omega)
  obtain ⟨-, -, hspace, hres⟩ := mapSections_of_reserve pageSize ehdr [p0, p1] os
  rw [hscan] at hspace hres
  dsimp only at hspace hres
  rw [hsp] at hspace hres
  rw [hmap] at hres
  rw [hspace] at hfit ⊢
  have hge := le_PAGE_END pageSize 0x1050 hp
  refine ⟨Nat.le_refl _, ?_⟩
  have hs0 : startAddr 0 base p0 = base := by
    unfold startAddr
    rw [v0, show (0 + U32 - 0) % U32 = 0 from by rw [hU], Nat.zero_add]
    exact Nat.mod_eq_of_lt (by omega)
  have hs1 : startAddr 0 base p1 = base + 0x1000 := by
    unfold startAddr
    rw [v1, show (0x1000 + U32 - 0) % U32 = 0x1000 from by rw [hU], Nat.add_comm]
    exact Nat.mod_eq_of_lt (by omega)
  have ha0 : PAGE_START pageSize base = base := by
    unfold PAGE_START; rw [halign]; rfl
  have ha1 : PAGE_START pageSize (base + 0x1000) = base + 0x1000 := by
    unfold PAGE_START
    rw [Nat.add_mod, halign, hdvd]
    simp
  have hr0 : segmentReq pageSize 0 base 0 p0 =
      { idx := 0, addr := base, len := PAGE_END pageSize 0x100,
        off := PAGE_START pageSize p0.p_offset } := by
    unfold segmentReq; rw [hs0, ha0, m0]
  have hr1 : segmentReq pageSize 0 base 1 p1 =
      { idx := 1, addr := base + 0x1000, len := PAGE_END pageSize 0x50,
        off := PAGE_START pageSize p1.p_offset } := by
    unfold segmentReq; rw [hs1, ha1, m1]
  have hf0 := hfirst (segmentReq pageSize 0 base 0 p0) rfl
  have e0 : phdrAt [p0, p1] 0 = p0 := rfl
  have e1 : phdrAt [p0, p1] 1 = p1 := rfl
  unfold mapSections
  dsimp only
  rw [hscan]
  dsimp only
  rw [hsp, ← hres, hnum]
  dsimp only
  rw [show List.range 2 = [0, 1] from rfl,
    mapLoop_cons_load _ _ _ _ _ _ _ _ (by rw [e0]; exact t0) (by rw [e0]; exact hf0)]
  rw [e0, hr0]
  by_cases hf1 : os.mapFixed (segmentReq pageSize 0 base 1 p1) = true
  · rw [mapLoop_cons_load _ _ _ _ _ _ _ _ (by rw [e1]; exact t1) (by rw [e1]; exact hf1)]
    rw [e1, hr1]
    simp [mapLoop]
  · rw [mapLoop_cons_fail _ _ _ _ _ _ _ _ (by rw [e1]; exact t1) (by rw [e1]; simpa using hf1)]
    rw [e1, hr1]
    simp

/-- C5 (witness): the scenario with pages of 4096 bytes, file offsets `0x234`
and `0x1234`, and the reservation granted at `0x10000`. -/
theorem mapSections_two_segment_scenario_witness :
    PAGE_END 4096 0x1050 ≤
      (mapSections 4096 (ehdrOfCount 2) [loadPhdr 0 0x100 0x234, loadPhdr 0x1000 0x50 0x1234]
        (osGranting 0x10000)).spaceRequired ∧
    (mapSections 4096 (ehdrOfCount 2) [loadPhdr 0 0x100 0x234, loadPhdr 0x1000 0x50 0x1234]
      (osGranting 0x10000)).requests =
      [{ idx := 0, addr := 0x10000, len := PAGE_END 4096 0x100,
         off := PAGE_START 4096 (loadPhdr 0 0x100 0x234).p_offset },
       { idx := 1, addr := 0x10000 + 0x1000, len := PAGE_END 4096 0x50,
         off := PAGE_START 4096 (loadPhdr 0x1000 0x50 0x1234).p_offset }] :=
  mapSections_two_segment_scenario 4096 (ehdrOfCount 2) (loadPhdr 0 0x100 0x234)
    (loadPhdr 0x1000 0x50 0x1234) (osGranting 0x10000) 0x10000 (by decide) (by decide) rfl
    (by decide) (by decide) (by decide) (by decide) (by decide) (fun _ _ => rfl)

/-! ## Claims about `loadSelfHeader` -/

theorem importLoop_done (L : SceLayout) (m : Mem) (seg0 vaddr0 import_end fuel cur : Nat)
    (acc : List ImportVisit) (h : ¬ cur < import_end) :
    importLoop L m seg0 vaddr0 import_end fuel cur acc = (acc, .returned true) := by
  cases fuel <;> simp [importLoop, h]

theorem importLoop_step (L : SceLayout) (m : Mem) (seg0 vaddr0 import_end fuel cur : Nat)
    (acc : List ImportVisit) (b : Nat) (s : List Byte) (h : cur < import_end)
    (hb : m.readU32 (cur + L.imports_module_name) = some b)
    (hs : m.readCStr (GG seg0 vaddr0 b) = some s) :
    importLoop L m seg0 vaddr0 import_end (fuel + 1) cur acc =
      importLoop L m seg0 vaddr0 import_end fuel (cur + L.imports_size)
        (acc ++ [{ desc := cur, nameAddr := GG seg0 vaddr0 b, name := s }]) := by
  rw [importLoop]
  simp [h, hb, hs]

/-- Every pass of the import loop resolves the name through `GG`. -/
theorem importLoop_nameAddr (L : SceLayout) (m : Mem) (seg0 vaddr0 import_end : Nat)
    (P : ImportVisit → Prop)
    (hP : ∀ cur b s, m.readU32 (cur + L.imports_module_name) = some b →
      m.readCStr (GG seg0 vaddr0 b) = some s →
      P { desc := cur, nameAddr := GG seg0 vaddr0 b, name := s })
    (fuel cur : Nat) (acc : List ImportVisit) (hacc : ∀ v ∈ acc, P v) :
    ∀ v ∈ (importLoop L m seg0 vaddr0 import_end fuel cur acc).1, P v := by
  induction fuel generalizing cur acc with
  | zero =>
    unfold importLoop
    split <;> exact hacc
  | succ fuel ih =>
    unfold importLoop
    split
    · split
      · exact hacc
      · rename_i b hb
        dsimp only
        split
        · exact hacc
        · rename_i s hs
          apply ih
          intro v hv
          rcases List.mem_append.mp hv with h | h
          · exact hacc v h
          · rw [List.mem_singleton.mp h]
            exact hP cur b s hb hs
    · exact hacc

theorem importLoop_walk (L : SceLayout) (m : Mem) (seg0 vaddr0 : Nat)
    (hsize : 0 < L.imports_size) (names : List (List Byte)) (fuel cur : Nat)
    (acc : List ImportVisit) (hfuel : names.length ≤ fuel)
    (hdesc : ∀ k (hk : k < names.length), ∃ b,
      m.readU32 (cur + k * L.imports_size + L.imports_module_name) = some b ∧
      m.readCStr (GG seg0 vaddr0 b) = some names[k]) :
    (importLoop L m seg0 vaddr0 (cur + names.length * L.imports_size) fuel cur acc).2 =
      .returned true ∧
    (importLoop L m seg0 vaddr0 (cur + names.length * L.imports_size) fuel cur acc).1.map
      (fun v => v.name) = acc.map (fun v => v.name) ++ names ∧
    (importLoop L m seg0 vaddr0 (cur + names.length * L.imports_size) fuel cur acc).1.map
      (fun v => v.desc) =
      acc.map (fun v => v.desc) ++
        (List.range names.length).map (fun k => cur + k * L.imports_size) := by
  induction names generalizing fuel cur acc with
  | nil =>
    rw [importLoop_done L m seg0 vaddr0 _ fuel cur acc (by simp)]
    simp
  | cons nm rest ih =>
    obtain ⟨fuel, rfl⟩ : ∃ f, fuel = f + 1 := ⟨fuel - 1, by simp at hfuel; omega⟩
    obtain ⟨b, hb, hs⟩ := hdesc 0 (by simp)
    simp only [Nat.zero_mul, Nat.add_zero, List.getElem_cons_zero] at hb hs
    have hend : cur + (nm :: rest).length * L.imports_size =
        cur + L.imports_size + rest.length * L.imports_size := by
      simp only [List.length_cons, Nat.add_mul, Nat.one_mul]; omega
    have hlt : cur < cur + (nm :: rest).length * L.imports_size := by
      rw [hend]
      have := Nat.zero_le (rest.length * L.imports_size)
      omega
    rw [importLoop_step L m seg0 vaddr0 _ fuel cur acc b nm hlt hb hs, hend]
    have ih' := ih fuel (cur + L.imports_size)
      (acc ++ [{ desc := cur, nameAddr := GG seg0 vaddr0 b, name := nm }])
      (by simp at hfuel; omega)
      (by
        intro k hk
        obtain ⟨b', hb', hs'⟩ := hdesc (k + 1) (by simp; omega)
        refine ⟨b', ?_, ?_⟩
        · rw [← hb']; congr 1
          rw [Nat.add_mul]; omega
        · simpa using hs')
    refine ⟨ih'.1, ?_, ?_⟩
    · rw [ih'.2.1]; simp
    · rw [ih'.2.2]
      simp only [List.map_append, List.map_cons, List.map_nil, List.length_cons,
        List.append_assoc, List.singleton_append]
      congr 1
      rw [List.range_succ_eq_map]
      simp only [List.map_cons, Nat.zero_mul, Nat.add_zero, List.map_map]
      congr 1
      apply List.map_congr_left
      intro k _
      simp only [Function.comp, Nat.succ_eq_add_one, Nat.add_mul, Nat.one_mul]
      omega

theorem loadSelfHeader_walk (L : SceLayout) (m : Mem) (ehdr : Elf32_Ehdr)
    (phdrs : List Elf32_Phdr) (segments : List Nat) (seg0 t e : Nat) (nm : List Byte)
    (hseg : segments[0]? = some seg0)
    (hname : m.readCStr ((seg0 + ehdr.e_entry) % UPTR + L.info_name) = some nm)
    (htop : m.readU32 ((seg0 + ehdr.e_entry) % UPTR + L.info_import_top) = some t)
    (hend : m.readU32 ((seg0 + ehdr.e_entry) % UPTR + L.info_import_end) = some e) :
    loadSelfHeader L m ehdr phdrs segments =
      { self_info := some ((seg0 + ehdr.e_entry) % UPTR)
        libName := some nm
        import_top := some (G seg0 t)
        import_end := some (G seg0 e)
        visits := (importLoop L m seg0 (phdrAt phdrs 0).p_vaddr (G seg0 e)
          (G seg0 e - G seg0 t) (G seg0 t) []).1
        outcome := (importLoop L m seg0 (phdrAt phdrs 0).p_vaddr (G seg0 e)
          (G seg0 e - G seg0 t) (G seg0 t) []).2 } := by
  unfold loadSelfHeader
  simp only [hseg, hname, htop, hend]

/-- C6: when the module-info record read through `segments[0] + e_entry` has
`import_end = import_top + N * sizeof(descriptor)` and, for every `k < N`, the
descriptor stored at `import_top + k * sizeof(descriptor)` names the string
`names[k]`, `loadSelfHeader` returns `true` after visiting exactly the `N`
descriptors in ascending storage order, and the names it logs are exactly
`names`, in that order. -/
theorem loadSelfHeader_round_trip (L : SceLayout) (m : Mem) (ehdr : Elf32_Ehdr)
    (phdrs : List Elf32_Phdr) (segments : List Nat) (seg0 t : Nat) (nm : List Byte)
    (names : List (List Byte))
    (hsize : 0 < L.imports_size)
    (hseg : segments[0]? = some seg0)
    (hname : m.readCStr ((seg0 + ehdr.e_entry) % UPTR + L.info_name) = some nm)
    (htop : m.readU32 ((seg0 + ehdr.e_entry) % UPTR + L.info_import_top) = some t)
    (hend : m.readU32 ((seg0 + ehdr.e_entry) % UPTR + L.info_import_end) =
      some (t + names.length * L.imports_size))
    (hfit : seg0 + (t + names.length * L.imports_size) < UPTR)
    (hdesc : ∀ k (hk : k < names.length), ∃ b,
      m.readU32 (seg0 + t + k * L.imports_size + L.imports_module_name) = some b ∧
      m.readCStr ((seg0 + (b + U32 - (phdrAt phdrs 0).p_vaddr) % U32) % UPTR) = some names[k]) :
    (loadSelfHeader L m ehdr phdrs segments).outcome = .returned true ∧
    (loadSelfHeader L m ehdr phdrs segments).libName = some nm ∧
    (loadSelfHeader L m ehdr phdrs segments).visits.map (fun v => v.name) = names ∧
    (loadSelfHeader L m ehdr phdrs segments).visits.map (fun v => v.desc) =
      (List.range names.length).map (fun k => seg0 + t + k * L.imports_size) := by
  rw [loadSelfHeader_walk L m ehdr phdrs segments seg0 t _ nm hseg hname htop hend]
  dsimp only
  have hP : UPTR = 18446744073709551616 := rfl
  have h1 : G seg0 t = seg0 + t := by
    unfold G
    exact Nat.mod_eq_of_lt (by have := Nat.zero_le (names.length * L.imports_size); omega)
  have h2 : G seg0 (t + names.length * L.imports_size) =
      seg0 + t + names.length * L.imports_size := by
    unfold G
    rw [Nat.mod_eq_of_lt hfit, Nat.add_assoc]
  rw [h1, h2]
  have hfuel : names.length ≤ seg0 + t + names.length * L.imports_size - (seg0 + t) := by
    have : names.length * 1 ≤ names.length * L.imports_size := Nat.mul_le_mul_left _ hsize
    omega
  have hw := importLoop_walk L m seg0 (phdrAt phdrs 0).p_vaddr hsize names _ (seg0 + t) []
    hfuel hdesc
  simpa using hw

set_option maxRecDepth 100000 in
/-- C6 (witness): in `sampleMem` the module-info record of `libfoo` delimits two
descriptors that name `libc` and `libkernel`; the walk logs `libfoo` and then
exactly `libc`, `libkernel`. -/
theorem loadSelfHeader_round_trip_witness :
    (loadSelfHeader vitaLayout sampleMem sampleEhdr [loadPhdr 0x81000000 0x112 0]
      [0x10000]).outcome = .returned true ∧
    (loadSelfHeader vitaLayout sampleMem sampleEhdr [loadPhdr 0x81000000 0x112 0]
      [0x10000]).libName = some libfoo ∧
    (loadSelfHeader vitaLayout sampleMem sampleEhdr [loadPhdr 0x81000000 0x112 0]
      [0x10000]).visits.map (fun v => v.name) = [libc, libkernel] ∧
    (loadSelfHeader vitaLayout sampleMem sampleEhdr [loadPhdr 0x81000000 0x112 0]
      [0x10000]).visits.map (fun v => v.desc) =
      (List.range [libc, libkernel].length).map
        (fun k => 0x10000 + 0x80 + k * vitaLayout.imports_size) :=
  loadSelfHeader_round_trip vitaLayout sampleMem sampleEhdr [loadPhdr 0x81000000 0x112 0]
    [0x10000] 0x10000 0x80 libfoo [libc, libkernel] (by decide) (by rfl) (by decide) (by decide)
    (by decide) (by decide)
    (by
      intro k hk
      have hk2 : k < 2 := hk
      interval_cases k
      · exact ⟨0x81000100, by decide, by rfl⟩
      · exact ⟨0x81000108, by decide, by rfl⟩)

/-- C7: for every descriptor that `loadSelfHeader` visits, the address used for
its module name is `segments[0] + (module_name - phdrs[0].p_vaddr)`, where
`module_name` is the field read from the descriptor and the difference is taken
in `uint32_t`: the offset is relative to the file virtual address of segment 0,
not to its mapped base. -/
theorem loadSelfHeader_name_address (L : SceLayout) (m : Mem) (ehdr : Elf32_Ehdr)
    (phdrs : List Elf32_Phdr) (segments : List Nat) (seg0 : Nat)
    (hseg : segments[0]? = some seg0) :
    ∀ v ∈ (loadSelfHeader L m ehdr phdrs segments).visits,
      ∃ b, m.readU32 (v.desc + L.imports_module_name) = some b ∧
        v.nameAddr = (seg0 + (b + U32 - (phdrAt phdrs 0).p_vaddr) % U32) % UPTR ∧
        m.readCStr v.nameAddr = some v.name := by
  unfold loadSelfHeader
  simp only [hseg]
  split
  · simp
  · split
    · simp
    · split
      · simp
      · dsimp only
        apply importLoop_nameAddr
        · intro cur b s hb hs
          exact ⟨b, hb, rfl, hs⟩
        · simp

set_option maxRecDepth 100000 in
/-- C7 (witness): in `sampleMem`, mapped at `0x10000` with file virtual address
`0x81000000`, the second descriptor, at `0x100B4`, holds `0x81000108` and its
name `libkernel` is read at `0x10108`. -/
theorem loadSelfHeader_name_address_witness :
    (loadSelfHeader vitaLayout sampleMem sampleEhdr [loadPhdr 0x81000000 0x112 0]
      [0x10000]).visits.map (fun v => v.nameAddr) = [0x10100, 0x10108] ∧
    ∃ b, sampleMem.readU32 (0x100B4 + vitaLayout.imports_module_name) = some b ∧
      0x10108 =
        (0x10000 + (b + U32 - (phdrAt [loadPhdr 0x81000000 0x112 0] 0).p_vaddr) % U32) % UPTR ∧
      sampleMem.readCStr 0x10108 = some libkernel :=
  ⟨by decide, loadSelfHeader_name_address vitaLayout sampleMem sampleEhdr
    [loadPhdr 0x81000000 0x112 0] [0x10000] 0x10000 (by rfl)
    { desc := 0x100B4, nameAddr := 0x10108, name := libkernel } (by decide)⟩

/-- C8: in `loadSelfHeader` the module-info record address is
`segments[0] + e_entry`, and, once the record's name and its two fields have
been read, the members `import_top` and `import_end` are `segments[0]` plus the
record's `import_top` and `import_end` fields: all three are offsets from the
mapped base of segment 0. -/
theorem loadSelfHeader_record_addresses (L : SceLayout) (m : Mem) (ehdr : Elf32_Ehdr)
    (phdrs : List Elf32_Phdr) (segments : List Nat) (seg0 : Nat)
    (hseg : segments[0]? = some seg0) :
    (loadSelfHeader L m ehdr phdrs segments).self_info = some ((seg0 + ehdr.e_entry) % UPTR) ∧
    ∀ (nm : List Byte) (t e : Nat),
      m.readCStr ((seg0 + ehdr.e_entry) % UPTR + L.info_name) = some nm →
      m.readU32 ((seg0 + ehdr.e_entry) % UPTR + L.info_import_top) = some t →
      m.readU32 ((seg0 + ehdr.e_entry) % UPTR + L.info_import_end) = some e →
      (loadSelfHeader L m ehdr phdrs segments).import_top = some ((seg0 + t) % UPTR) ∧
      (loadSelfHeader L m ehdr phdrs segments).import_end = some ((seg0 + e) % UPTR) := by
  constructor
  · unfold loadSelfHeader
    simp only [hseg]
    split
    · rfl
    · split
      · rfl
      · split <;> rfl
  · intro nm t e hname htop hend
    rw [loadSelfHeader_walk L m ehdr phdrs segments seg0 t e nm hseg hname htop hend]
    exact ⟨rfl, rfl⟩

set_option maxRecDepth 100000 in
/-- C8 (witness): in `sampleMem` the record is at `0x10040` and the descriptor
array spans `0x10080 .. 0x100E8`. -/
theorem loadSelfHeader_record_addresses_witness :
    (loadSelfHeader vitaLayout sampleMem sampleEhdr [loadPhdr 0x81000000 0x112 0]
      [0x10000]).self_info = some 0x10040 ∧
    (loadSelfHeader vitaLayout sampleMem sampleEhdr [loadPhdr 0x81000000 0x112 0]
      [0x10000]).import_top = some ((0x10000 + 0x80) % UPTR) ∧
    (loadSelfHeader vitaLayout sampleMem sampleEhdr [loadPhdr 0x81000000 0x112 0]
      [0x10000]).import_end = some ((0x10000 + 0xE8) % UPTR) :=
  ⟨(loadSelfHeader_record_addresses vitaLayout sampleMem sampleEhdr
      [loadPhdr 0x81000000 0x112 0] [0x10000] 0x10000 (by rfl)).1,
    (loadSelfHeader_record_addresses vitaLayout sampleMem sampleEhdr
      [loadPhdr 0x81000000 0x112 0] [0x10000] 0x10000 (by rfl)).2 libfoo 0x80 0xE8
      (by decide) (by decide) (by decide)⟩

/-! ## Claims about `loadEhdrPhdr` -/

theorem readAt_length (file : List Byte) (pos n : Nat) :
    (readAt file pos n).length = min n (file.length - pos) := by
  unfold readAt
  rw [List.length_take, List.length_drop]

theorem readAt_full_iff (file : List Byte) (ehdr : Elf32_Ehdr) (i : Nat) :
    (readAt file (phdrOff ehdr i) sizeofPhdr).length = sizeofPhdr ↔ PhdrReadable file ehdr i := by
  rw [readAt_length]
  unfold PhdrReadable sizeofPhdr
  omega

theorem readPhdrs_cons_ok (file : List Byte) (ehdr : Elf32_Ehdr) (i : Nat) (rest : List Nat)
    (acc : List Elf32_Phdr) (h : PhdrReadable file ehdr i) :
    readPhdrs file ehdr (i :: rest) acc =
      readPhdrs file ehdr rest
        (acc ++ [decodePhdr (readAt file (phdrOff ehdr i) sizeofPhdr)]) := by
  rw [readPhdrs]
  simp [(readAt_full_iff file ehdr i).mpr h]

theorem readPhdrs_cons_error (file : List Byte) (ehdr : Elf32_Ehdr) (i : Nat) (rest : List Nat)
    (acc : List Elf32_Phdr) (h : ¬ PhdrReadable file ehdr i) :
    readPhdrs file ehdr (i :: rest) acc = .error (.cannotReadPhdr i) := by
  rw [readPhdrs]
  have h' : ¬ (readAt file (phdrOff ehdr i) sizeofPhdr).length = sizeofPhdr :=
    fun hc => h ((readAt_full_iff file ehdr i).mp hc)
  simp [h']

theorem readPhdrs_all (file : List Byte) (ehdr : Elf32_Ehdr) (l : List Nat)
    (acc : List Elf32_Phdr) (h : ∀ i ∈ l, PhdrReadable file ehdr i) :
    readPhdrs file ehdr l acc =
      .ok (acc ++ l.map (fun i => decodePhdr (readAt file (phdrOff ehdr i) sizeofPhdr))) := by
  induction l generalizing acc with
  | nil => simp [readPhdrs]
  | cons i rest ih =>
    rw [readPhdrs_cons_ok file ehdr i rest acc (h i (List.mem_cons_self _ _)),
      ih _ (fun j hj => h j (List.mem_cons_of_mem _ hj))]
    simp

theorem readPhdrs_first_error (file : List Byte) (ehdr : Elf32_Ehdr) (l : List Nat)
    (acc : List Elf32_Phdr) (hsorted : l.Pairwise (· < ·)) (i : Nat) (hi : i ∈ l)
    (hbad : ¬ PhdrReadable file ehdr i) (hbefore : ∀ j, j < i → PhdrReadable file ehdr j) :
    readPhdrs file ehdr l acc = .error (.cannotReadPhdr i) := by
  induction l generalizing acc with
  | nil => simp at hi
  | cons a rest ih =>
    rcases List.mem_cons.mp hi with rfl | hmem
    · exact readPhdrs_cons_error file ehdr i rest acc hbad
    · have hlt : a < i := (List.pairwise_cons.mp hsorted).1 i hmem
      rw [readPhdrs_cons_ok file ehdr a rest acc (hbefore a hlt)]
      exact ih _ (List.pairwise_cons.mp hsorted).2 hmem

theorem readPhdrs_ok_inv (file : List Byte) (ehdr : Elf32_Ehdr) (l : List Nat)
    (acc r : List Elf32_Phdr) (h : readPhdrs file ehdr l acc = .ok r) :
    ∀ i ∈ l, PhdrReadable file ehdr i := by
  induction l generalizing acc with
  | nil => simp
  | cons a rest ih =>
    by_cases ha : PhdrReadable file ehdr a
    · rw [readPhdrs_cons_ok file ehdr a rest acc ha] at h
      intro i hi
      rcases List.mem_cons.mp hi with rfl | hmem
      · exact ha
      · exact ih _ h i hmem
    · rw [readPhdrs_cons_error file ehdr a rest acc ha] at h
      cases h

theorem loadEhdrPhdr_short (file : List Byte) (h : file.length < sizeofEhdr) :
    loadEhdrPhdr (some file) = .error .cannotReadEhdr := by
  unfold loadEhdrPhdr
  have h1 : (readAt file 0 sizeofEhdr).length ≠ sizeofEhdr := by
    rw [readAt_length]; omega
  simp only [h1, ne_eq, not_false_eq_true, if_true]

theorem loadEhdrPhdr_some (file : List Byte) (h : sizeofEhdr ≤ file.length) :
    loadEhdrPhdr (some file) =
      match readPhdrs file (decodeEhdr (file.take sizeofEhdr))
          (List.range (decodeEhdr (file.take sizeofEhdr)).e_phnum) [] with
      | .error e => .error e
      | .ok phdrs => .ok (decodeEhdr (file.take sizeofEhdr), phdrs) := by
  unfold loadEhdrPhdr
  have h1 : (readAt file 0 sizeofEhdr).length = sizeofEhdr := by
    rw [readAt_length]; omega
  have h2 : readAt file 0 sizeofEhdr = file.take sizeofEhdr := by
    unfold readAt; simp
  rw [h2] at h1
  simp only [h2, h1, ne_eq, not_true_eq_false, if_false]

/-- C9 (amended): for a file that can be opened, `loadEhdrPhdr` fails on the
header when the file holds fewer than `sizeof(Elf32_Ehdr)` bytes; otherwise,
when some entry below `e_phnum` has no full record at the offset
`(e_phoff + i * e_phentsize) mod 2 ^ 32`, the `unsigned int off` of line 54, it
fails, and the entry it fails on is the least such `i`; and it succeeds when
every entry below `e_phnum` can be read at that offset. -/
theorem loadEhdrPhdr_failure (file : List Byte) :
    (file.length < sizeofEhdr → loadEhdrPhdr (some file) = .error .cannotReadEhdr) ∧
    (sizeofEhdr ≤ file.length →
      ((∃ i, i < (decodeEhdr (file.take sizeofEhdr)).e_phnum ∧
          ¬ PhdrReadable file (decodeEhdr (file.take sizeofEhdr)) i) →
        ∃ k, k < (decodeEhdr (file.take sizeofEhdr)).e_phnum ∧
          ¬ PhdrReadable file (decodeEhdr (file.take sizeofEhdr)) k ∧
          (∀ j, j < k → PhdrReadable file (decodeEhdr (file.take sizeofEhdr)) j) ∧
          loadEhdrPhdr (some file) = .error (.cannotReadPhdr k)) ∧
      (∀ i, i < (decodeEhdr (file.take sizeofEhdr)).e_phnum →
        ¬ PhdrReadable file (decodeEhdr (file.take sizeofEhdr)) i →
        (∀ j, j < i → PhdrReadable file (decodeEhdr (file.take sizeofEhdr)) j) →
        loadEhdrPhdr (some file) = .error (.cannotReadPhdr i)) ∧
      ((∀ i, i < (decodeEhdr (file.take sizeofEhdr)).e_phnum →
          PhdrReadable file (decodeEhdr (file.take sizeofEhdr)) i) →
        ∃ phdrs, loadEhdrPhdr (some file) = .ok (decodeEhdr (file.take sizeofEhdr), phdrs))) := by
  refine ⟨loadEhdrPhdr_short file, ?_⟩
  intro h
  have hleast : ∀ i, i < (decodeEhdr (file.take sizeofEhdr)).e_phnum →
      ¬ PhdrReadable file (decodeEhdr (file.take sizeofEhdr)) i →
      (∀ j, j < i → PhdrReadable file (decodeEhdr (file.take sizeofEhdr)) j) →
      loadEhdrPhdr (some file) = .error (.cannotReadPhdr i) := by
    intro i hi hbad hbefore
    rw [loadEhdrPhdr_some file h,
      readPhdrs_first_error file _ _ [] (List.pairwise_lt_range _) i (List.mem_range.mpr hi) hbad
        hbefore]
  refine ⟨?_, hleast, ?_⟩
  · intro hex
    have hex' : ∃ i, ¬ PhdrReadable file (decodeEhdr (file.take sizeofEhdr)) i := by
      obtain ⟨i, _, hi⟩ := hex
      exact ⟨i, hi⟩
    refine ⟨Nat.find hex', ?_, Nat.find_spec hex', ?_, ?_⟩
    · obtain ⟨i, hi, hbad⟩ := hex
      exact Nat.lt_of_le_of_lt (Nat.find_min' hex' hbad) hi
    · intro j hj
      exact Decidable.not_not.mp (Nat.find_min hex' hj)
    · apply hleast _ _ (Nat.find_spec hex')
      · intro j hj
        exact Decidable.not_not.mp (Nat.find_min hex' hj)
      · obtain ⟨i, hi, hbad⟩ := hex
        exact Nat.lt_of_le_of_lt (Nat.find_min' hex' hbad) hi
  · intro hall
    rw [loadEhdrPhdr_some file h,
      readPhdrs_all file _ _ [] (fun i hi => hall i (List.mem_range.mp hi))]
    exact ⟨_, rfl⟩

set_option maxRecDepth 20000 in
/-- C9 (witness): `shortPhdrFile` announces four entries of size 24; entries 0
and 1 can be read, entries 2 and 3 cannot, and the failure is reported for
entry 2. -/
theorem loadEhdrPhdr_failure_witness :
    loadEhdrPhdr (some shortPhdrFile) = .error (.cannotReadPhdr 2) :=
  (loadEhdrPhdr_failure shortPhdrFile).2 (by decide) |>.2.1 2 (by decide) (by decide) (by decide)

/-- C10 (amended): when `loadEhdrPhdr` succeeds, `ehdr` is the decoding of the
first `sizeof(Elf32_Ehdr)` bytes, `phdrs` has exactly `e_phnum` entries, and
entry `i` is the decoding of the `sizeof(Elf32_Phdr)` bytes of the file that
start at the offset `(e_phoff + i * e_phentsize) mod 2 ^ 32`, the
`unsigned int off` of line 54, whatever `e_phentsize` is. -/
theorem loadEhdrPhdr_entries (file : Option (List Byte)) (ehdr : Elf32_Ehdr)
    (phdrs : List Elf32_Phdr) (h : loadEhdrPhdr file = .ok (ehdr, phdrs)) :
    ∃ bytes, file = some bytes ∧ sizeofEhdr ≤ bytes.length ∧
      ehdr = decodeEhdr (bytes.take sizeofEhdr) ∧
      phdrs.length = ehdr.e_phnum ∧
      ∀ i, i < ehdr.e_phnum →
        phdrOff ehdr i + sizeofPhdr ≤ bytes.length ∧
        phdrs[i]? = some (decodePhdr ((bytes.drop (phdrOff ehdr i)).take sizeofPhdr)) := by
  cases file with
  | none => simp [loadEhdrPhdr] at h
  | some bytes =>
    refine ⟨bytes, rfl, ?_⟩
    by_cases hlen : sizeofEhdr ≤ bytes.length
    · rw [loadEhdrPhdr_some bytes hlen] at h
      split at h
      · cases h
      · rename_i ps hps
        simp only [Except.ok.injEq, Prod.mk.injEq] at h
        obtain ⟨he, hp⟩ := h
        subst he hp
        have hall := readPhdrs_ok_inv bytes _ _ [] ps hps
        rw [readPhdrs_all bytes _ _ [] hall] at hps
        simp only [Except.ok.injEq, List.nil_append] at hps
        subst hps
        refine ⟨hlen, rfl, by simp, ?_⟩
        intro i hi
        refine ⟨hall i (List.mem_range.mpr hi), ?_⟩
        simp [hi, readAt]
    · exfalso
      have h1 := loadEhdrPhdr_short bytes (by omega)
      rw [h1] at h
      cases h

set_option maxRecDepth 20000 in
/-- C10 (witness): `overlapPhdrFile` announces two entries of size 24, so the
read of entry 1 starts inside the record of entry 0; both entries are the
decodings of the 32 bytes at offsets 52 and 76. -/
theorem loadEhdrPhdr_entries_witness :
    loadEhdrPhdr (some overlapPhdrFile) =
      .ok (decodeEhdr (overlapPhdrFile.take sizeofEhdr),
        [loadPhdr 0 0x100 0x234,
         { p_type := 0, p_offset := 0, p_vaddr := 1, p_paddr := 0x1234, p_filesz := 0x1000,
           p_memsz := 0, p_flags := 0, p_align := 0x50 }]) ∧
    ∃ bytes, some overlapPhdrFile = some bytes ∧ sizeofEhdr ≤ bytes.length ∧
      decodeEhdr (overlapPhdrFile.take sizeofEhdr) = decodeEhdr (bytes.take sizeofEhdr) ∧
      [loadPhdr 0 0x100 0x234,
         { p_type := 0, p_offset := 0, p_vaddr := 1, p_paddr := 0x1234, p_filesz := 0x1000,
           p_memsz := 0, p_flags := 0, p_align := 0x50 }].length =
        (decodeEhdr (overlapPhdrFile.take sizeofEhdr)).e_phnum ∧
      ∀ i, i < (decodeEhdr (overlapPhdrFile.take sizeofEhdr)).e_phnum →
        phdrOff (decodeEhdr (overlapPhdrFile.take sizeofEhdr)) i + sizeofPhdr ≤ bytes.length ∧
        [loadPhdr 0 0x100 0x234,
         { p_type := 0, p_offset := 0, p_vaddr := 1, p_paddr := 0x1234, p_filesz := 0x1000,
           p_memsz := 0, p_flags := 0, p_align := 0x50 }][i]? =
          some (decodePhdr
            ((bytes.drop (phdrOff (decodeEhdr (overlapPhdrFile.take sizeofEhdr)) i)).take
              sizeofPhdr)) :=
  ⟨by rfl, loadEhdrPhdr_entries (some overlapPhdrFile)
    (decodeEhdr (overlapPhdrFile.take sizeofEhdr)) _ (by rfl)⟩

/-! ## Further claims about `mapSections` -/

theorem foldl_scan_no_load (phdrs : List Elf32_Phdr) (l : List Nat) (acc : Nat × Nat)
    (h : ∀ i ∈ l, (phdrAt phdrs i).p_type ≠ PT_LOAD) :
    l.foldl (scanStep phdrs) acc = acc := by
  induction l generalizing acc with
  | nil => rfl
  | cons j l ih =>
    rw [List.foldl_cons, scanStep_skip phdrs acc j (h j (List.mem_cons_self _ _))]
    exact ih acc (fun i hi => h i (List.mem_cons_of_mem _ hi))

theorem mapLoop_no_load (pageSize : Nat) (phdrs : List Elf32_Phdr) (minAddr mappingInt : Nat)
    (mapFixed : MapReq → Bool) (l : List Nat) (acc : MapAcc)
    (h : ∀ i ∈ l, (phdrAt phdrs i).p_type ≠ PT_LOAD) :
    mapLoop pageSize phdrs minAddr mappingInt mapFixed l acc = (acc, true) := by
  induction l generalizing acc with
  | nil => rfl
  | cons j l ih =>
    rw [mapLoop_cons_skip _ _ _ _ _ _ _ _ (h j (List.mem_cons_self _ _))]
    exact ih acc (fun i hi => h i (List.mem_cons_of_mem _ hi))

/-- C11 (counterexample): on a table whose only entry is not `PT_LOAD`, with an
operating system that grants the reservation, `mapSections` reserves one page
and returns `true`. -/
theorem mapSections_no_load_counterexample :
    notePhdr.p_type ≠ PT_LOAD ∧
    (mapSections 4096 (ehdrOfCount 1) [notePhdr] (osGranting 0x10000)).spaceRequired = 0x1000 ∧
    (mapSections 4096 (ehdrOfCount 1) [notePhdr] (osGranting 0x10000)).mapping = some 0x10000 ∧
    (mapSections 4096 (ehdrOfCount 1) [notePhdr] (osGranting 0x10000)).ok = true := by
  decide

/-- C11 (amended): for every program-header table that contains no `PT_LOAD`
entry (the empty table included), the scan of `mapSections` leaves
`minAddr = 0xffffffff` and `maxAddr = 0`, the function asks for a reservation of
`pageAlign(1)` bytes, requests no file mapping, and returns `true` exactly when
the reservation is granted, with every element of `segments` null. -/
theorem mapSections_no_load (pageSize : Nat) (ehdr : Elf32_Ehdr) (phdrs : List Elf32_Phdr)
    (os : Os)
    (hnone : ∀ i, i < ehdr.e_phnum → (phdrAt phdrs i).p_type ≠ PT_LOAD) :
    (mapSections pageSize ehdr phdrs os).minAddr = 0xffffffff ∧
    (mapSections pageSize ehdr phdrs os).maxAddr = 0 ∧
    (mapSections pageSize ehdr phdrs os).spaceRequired = PAGE_END pageSize 1 % U32 ∧
    (mapSections pageSize ehdr phdrs os).mapping = os.reserve (PAGE_END pageSize 1 % U32) ∧
    (mapSections pageSize ehdr phdrs os).requests = [] ∧
    (mapSections pageSize ehdr phdrs os).ok = (os.reserve (PAGE_END pageSize 1 % U32)).isSome ∧
    ((mapSections pageSize ehdr phdrs os).ok = true →
      (mapSections pageSize ehdr phdrs os).segments = List.replicate ehdr.e_phnum 0) := by
  have hscan : scanAddrs ehdr.e_phnum phdrs = (0xffffffff, 0) :=
    foldl_scan_no_load phdrs _ _ (fun i hi => hnone i (List.mem_range.mp hi))
  have hsp : spaceRequired pageSize 0xffffffff 0 = PAGE_END pageSize 1 % U32 := by
    unfold spaceRequired
    rw [show (0 + U32 - 0xffffffff) % U32 = 1 from by decide]
  unfold mapSections
  dsimp only
  rw [hscan]
  dsimp only
  rw [hsp]
  cases hres : os.reserve (PAGE_END pageSize 1 % U32) with
  | none => simp
  | some base =>
    dsimp only
    rw [mapLoop_no_load _ _ _ _ _ _ _ (fun i hi => hnone i (List.mem_range.mp hi))]
    simp

/-- C11 (witness): the empty table, with the reservation granted at
`0x10000`. -/
theorem mapSections_no_load_witness :
    (mapSections 4096 (ehdrOfCount 0) [] (osGranting 0x10000)).minAddr = 0xffffffff ∧
    (mapSections 4096 (ehdrOfCount 0) [] (osGranting 0x10000)).maxAddr = 0 ∧
    (mapSections 4096 (ehdrOfCount 0) [] (osGranting 0x10000)).spaceRequired =
      PAGE_END 4096 1 % U32 ∧
    (mapSections 4096 (ehdrOfCount 0) [] (osGranting 0x10000)).mapping =
      (osGranting 0x10000).reserve (PAGE_END 4096 1 % U32) ∧
    (mapSections 4096 (ehdrOfCount 0) [] (osGranting 0x10000)).requests = [] ∧
    (mapSections 4096 (ehdrOfCount 0) [] (osGranting 0x10000)).ok =
      ((osGranting 0x10000).reserve (PAGE_END 4096 1 % U32)).isSome ∧
    ((mapSections 4096 (ehdrOfCount 0) [] (osGranting 0x10000)).ok = true →
      (mapSections 4096 (ehdrOfCount 0) [] (osGranting 0x10000)).segments =
        List.replicate (ehdrOfCount 0).e_phnum 0) :=
  mapSections_no_load 4096 (ehdrOfCount 0) [] (osGranting 0x10000) (by decide)

/-- The mapping loop, when it runs to its end: the requests are those of the
`PT_LOAD` indices, in order, and exactly their elements of `segments` are
overwritten. -/
theorem mapLoop_ok (pageSize : Nat) (phdrs : List Elf32_Phdr) (minAddr mappingInt : Nat)
    (mapFixed : MapReq → Bool) (l : List Nat) (acc : MapAcc)
    (h : (mapLoop pageSize phdrs minAddr mappingInt mapFixed l acc).2 = true) :
    (mapLoop pageSize phdrs minAddr mappingInt mapFixed l acc).1.requests =
      acc.requests ++ (l.filter (fun i => decide ((phdrAt phdrs i).p_type = PT_LOAD))).map
        (fun i => segmentReq pageSize minAddr mappingInt i (phdrAt phdrs i)) ∧
    (mapLoop pageSize phdrs minAddr mappingInt mapFixed l acc).1.segments.length =
      acc.segments.length ∧
    ∀ i, (mapLoop pageSize phdrs minAddr mappingInt mapFixed l acc).1.segments[i]? =
      if i ∈ l ∧ (phdrAt phdrs i).p_type = PT_LOAD ∧ i < acc.segments.length then
        some (segmentBase pageSize minAddr mappingInt (phdrAt phdrs i))
      else acc.segments[i]? := by
  induction l generalizing acc with
  | nil => simp [mapLoop]
  | cons j l ih =>
    by_cases hj : (phdrAt phdrs j).p_type = PT_LOAD
    · by_cases hf : mapFixed (segmentReq pageSize minAddr mappingInt j (phdrAt phdrs j)) = true
      · rw [mapLoop_cons_load _ _ _ _ _ _ _ _ hj hf] at h ⊢
        obtain ⟨h1, h2, h3⟩ := ih _ h
        refine ⟨?_, ?_, ?_⟩
        · rw [h1]; simp [List.filter_cons, hj]
        · rw [h2]; simp
        · intro i
          rw [h3 i]
          simp only [List.length_set, List.mem_cons, List.getElem?_set]
          by_cases hij : j = i
          · subst hij
            by_cases hlen : j < acc.segments.length
            · simp [hj, hlen]
            · simp [hlen]
              omega
          · have hij' : i ≠ j := fun hc => hij hc.symm
            simp [hij, hij']
      · have hf' : mapFixed (segmentReq pageSize minAddr mappingInt j (phdrAt phdrs j)) = false := by
          simpa using hf
        rw [mapLoop_cons_fail _ _ _ _ _ _ _ _ hj hf'] at h
        simp at h
    · rw [mapLoop_cons_skip _ _ _ _ _ _ _ _ hj] at h ⊢
      obtain ⟨h1, h2, h3⟩ := ih _ h
      refine ⟨?_, h2, ?_⟩
      · rw [h1]; simp [List.filter_cons, hj]
      · intro i
        rw [h3 i]
        by_cases hij : i = j
        · subst hij
          simp [hj]
        · simp [hij]

/-- A successful run of `mapSections`: the reservation was granted, the requests
are those of the `PT_LOAD` indices in ascending order, and `segments` holds the
value of line 96 at the `PT_LOAD` indices and null elsewhere. -/
theorem mapSections_ok (pageSize : Nat) (ehdr : Elf32_Ehdr) (phdrs : List Elf32_Phdr) (os : Os)
    (hok : (mapSections pageSize ehdr phdrs os).ok = true) :
    ∃ base, (mapSections pageSize ehdr phdrs os).mapping = some base ∧
      (mapSections pageSize ehdr phdrs os).requests =
        ((List.range ehdr.e_phnum).filter
          (fun i => decide ((phdrAt phdrs i).p_type = PT_LOAD))).map
          (fun i => segmentReq pageSize (scanAddrs ehdr.e_phnum phdrs).1 base i (phdrAt phdrs i)) ∧
      (mapSections pageSize ehdr phdrs os).segments.length = ehdr.e_phnum ∧
      ∀ i, i < ehdr.e_phnum →
        (mapSections pageSize ehdr phdrs os).segments[i]? =
          if (phdrAt phdrs i).p_type = PT_LOAD then
            some (segmentBase pageSize (scanAddrs ehdr.e_phnum phdrs).1 base (phdrAt phdrs i))
          else some 0 := by
  unfold mapSections at hok ⊢
  dsimp only at hok ⊢
  cases hres : os.reserve (spaceRequired pageSize (scanAddrs ehdr.e_phnum phdrs).1
      (scanAddrs ehdr.e_phnum phdrs).2) with
  | none => rw [hres] at hok; simp at hok
  | some base =>
    rw [hres] at hok
    dsimp only at hok ⊢
    obtain ⟨h1, h2, h3⟩ := mapLoop_ok _ _ _ _ _ _ _ hok
    refine ⟨base, rfl, ?_, ?_, ?_⟩
    · rw [h1]; simp
    · rw [h2]; simp
    · intro i hi
      rw [h3 i]
      by_cases hl : (phdrAt phdrs i).p_type = PT_LOAD
      · simp [hl, hi]
      · simp [hl, hi]

/-- C14: after a successful `mapSections`, every index below `e_phnum` whose
entry is not `PT_LOAD` has a null `segments` element and no file mapping was
requested for it; the indices of the requests are exactly the `PT_LOAD`
indices, in ascending order; and every `PT_LOAD` index holds the address
recorded at line 96. -/
theorem mapSections_segments_frame (pageSize : Nat) (ehdr : Elf32_Ehdr)
    (phdrs : List Elf32_Phdr) (os : Os)
    (hok : (mapSections pageSize ehdr phdrs os).ok = true) :
    (mapSections pageSize ehdr phdrs os).segments.length = ehdr.e_phnum ∧
    (∀ i, i < ehdr.e_phnum → (phdrAt phdrs i).p_type ≠ PT_LOAD →
      (mapSections pageSize ehdr phdrs os).segments[i]? = some 0 ∧
      ∀ r ∈ (mapSections pageSize ehdr phdrs os).requests, r.idx ≠ i) ∧
    (mapSections pageSize ehdr phdrs os).requests.map (fun r => r.idx) =
      (List.range ehdr.e_phnum).filter (fun i => decide ((phdrAt phdrs i).p_type = PT_LOAD)) ∧
    ∃ base, (mapSections pageSize ehdr phdrs os).mapping = some base ∧
      ∀ i, i < ehdr.e_phnum → (phdrAt phdrs i).p_type = PT_LOAD →
        (mapSections pageSize ehdr phdrs os).segments[i]? =
          some (segmentBase pageSize (mapSections pageSize ehdr phdrs os).minAddr base
            (phdrAt phdrs i)) := by
  obtain ⟨base, hmap, hreq, hlen, hseg⟩ := mapSections_ok pageSize ehdr phdrs os hok
  obtain ⟨hmin, -, -, -⟩ := mapSections_of_reserve pageSize ehdr phdrs os
  have hidx : (mapSections pageSize ehdr phdrs os).requests.map (fun r => r.idx) =
      (List.range ehdr.e_phnum).filter
        (fun i => decide ((phdrAt phdrs i).p_type = PT_LOAD)) := by
    rw [hreq, List.map_map]
    have : ((fun r : MapReq => r.idx) ∘ fun i =>
        segmentReq pageSize (scanAddrs ehdr.e_phnum phdrs).1 base i (phdrAt phdrs i)) = id := by
      funext i; rfl
    rw [this, List.map_id]
  refine ⟨hlen, ?_, hidx, base, hmap, ?_⟩
  · intro i hi hl
    refine ⟨by rw [hseg i hi]; simp [hl], ?_⟩
    intro r hr hri
    have hmem : r.idx ∈ (mapSections pageSize ehdr phdrs os).requests.map (fun r => r.idx) :=
      List.mem_map_of_mem _ hr
    rw [hidx, hri] at hmem
    have := (List.mem_filter.mp hmem).2
    simp [hl] at this
  · intro i hi hl
    rw [hseg i hi, hmin]
    simp [hl]

/-- C14 (witness): on three entries with a `PT_NOTE` entry in the middle, the
middle element of `segments` stays null and the requests are those of entries
0 and 2. -/
theorem mapSections_segments_frame_witness :
    (mapSections 4096 (ehdrOfCount 3) [loadPhdr 0x2000 0x100 0, notePhdr, loadPhdr 0x1000 0x50 0x1000]
      (osGranting 0x10000)).segments = [0x11000, 0, 0x10000] ∧
    (mapSections 4096 (ehdrOfCount 3) [loadPhdr 0x2000 0x100 0, notePhdr, loadPhdr 0x1000 0x50 0x1000]
      (osGranting 0x10000)).segments[1]? = some 0 ∧
    (mapSections 4096 (ehdrOfCount 3) [loadPhdr 0x2000 0x100 0, notePhdr, loadPhdr 0x1000 0x50 0x1000]
      (osGranting 0x10000)).requests.map (fun r => r.idx) =
      (List.range (ehdrOfCount 3).e_phnum).filter
        (fun i => decide ((phdrAt [loadPhdr 0x2000 0x100 0, notePhdr, loadPhdr 0x1000 0x50 0x1000]
          i).p_type = PT_LOAD)) :=
  ⟨by decide,
    ((mapSections_segments_frame 4096 (ehdrOfCount 3)
      [loadPhdr 0x2000 0x100 0, notePhdr, loadPhdr 0x1000 0x50 0x1000] (osGranting 0x10000)
      (by decide)).2.1 1 (by decide) (by decide)).1,
    (mapSections_segments_frame 4096 (ehdrOfCount 3)
      [loadPhdr 0x2000 0x100 0, notePhdr, loadPhdr 0x1000 0x50 0x1000] (osGranting 0x10000)
      (by decide)).2.2.1⟩

/-- C17 (failing input): for a single `PT_LOAD` entry with file offset `0xC0` and
memory size `0x1000`, `mapSections` maps one page, `[0x10000, 0x11000)`, and
records `segments[0] = 0x100C0`, so the data range `[0x100C0, 0x110C0)` runs
`0xC0` bytes past the end of the pages mapped for the entry. -/
theorem mapSections_data_past_mapping :
    (mapSections 4096 (ehdrOfCount 1) [loadPhdr 0x81000000 0x1000 0xC0]
      (osGranting 0x10000)).ok = true ∧
    (mapSections 4096 (ehdrOfCount 1) [loadPhdr 0x81000000 0x1000 0xC0]
      (osGranting 0x10000)).requests = [{ idx := 0, addr := 0x10000, len := 0x1000, off := 0 }] ∧
    (mapSections 4096 (ehdrOfCount 1) [loadPhdr 0x81000000 0x1000 0xC0]
      (osGranting 0x10000)).segments = [0x100C0] ∧
    ¬ (0x100C0 + (loadPhdr 0x81000000 0x1000 0xC0).p_memsz ≤ 0x10000 + 0x1000) := by
  decide

/-! ## Claims across the three steps -/

theorem loadEhdrPhdr_ok_length (file : Option (List Byte)) (ehdr : Elf32_Ehdr)
    (phdrs : List Elf32_Phdr) (h : loadEhdrPhdr file = .ok (ehdr, phdrs)) :
    phdrs.length = ehdr.e_phnum := by
  cases file with
  | none => simp [loadEhdrPhdr] at h
  | some bytes =>
    by_cases hlen : sizeofEhdr ≤ bytes.length
    · rw [loadEhdrPhdr_some bytes hlen] at h
      split at h
      · cases h
      · rename_i ps hps
        simp only [Except.ok.injEq, Prod.mk.injEq] at h
        obtain ⟨he, hp⟩ := h
        subst he hp
        have hall := readPhdrs_ok_inv bytes _ _ [] ps hps
        rw [readPhdrs_all bytes _ _ [] hall] at hps
        simp only [Except.ok.injEq, List.nil_append] at hps
        subst hps
        simp
    · rw [loadEhdrPhdr_short bytes (by omega)] at h
      cases h

theorem segmentBase_pos (pageSize minAddr base : Nat) (phdr : Elf32_Phdr)
    (hp : 0 < pageSize) (hbase : 0 < base) (hfit : base + U32 + pageSize ≤ UPTR) :
    segmentBase pageSize minAddr base phdr ≠ 0 := by
  unfold segmentBase startAddr PAGE_OFFSET
  have h1 : (phdr.p_vaddr + U32 - minAddr) % U32 < U32 := Nat.mod_lt _ (by decide)
  have h2 : phdr.p_offset % pageSize < pageSize := Nat.mod_lt _ hp
  rw [Nat.mod_eq_of_lt (by omega : (phdr.p_vaddr + U32 - minAddr) % U32 + base < UPTR),
    Nat.mod_eq_of_lt (by omega)]
  omega

set_option maxRecDepth 100000 in
/-- C19 (counterexample): a header that announces no program header loads, and
`mapSections` succeeds on it with empty `phdrs` and `segments` arrays, so index
0 is out of bounds; and on a file whose entry 0 is `PT_NOTE` both steps succeed
and `segments[0]` is null. -/
theorem load_index0_counterexample :
    (loadEhdrPhdr (some noPhdrFile) = .ok (decodeEhdr noPhdrFile, []) ∧
      (decodeEhdr noPhdrFile).e_phnum = 0 ∧
      (mapSections 4096 (decodeEhdr noPhdrFile) [] (osGranting 0x10000)).ok = true ∧
      (mapSections 4096 (decodeEhdr noPhdrFile) [] (osGranting 0x10000)).segments[0]? = none ∧
      ([] : List Elf32_Phdr)[0]? = none) ∧
    (loadEhdrPhdr (some noteFirstFile) =
        .ok (decodeEhdr (noteFirstFile.take sizeofEhdr), [notePhdr, loadPhdr 0 0x100 0]) ∧
      (mapSections 4096 (decodeEhdr (noteFirstFile.take sizeofEhdr))
        [notePhdr, loadPhdr 0 0x100 0] (osGranting 0x10000)).ok = true ∧
      (mapSections 4096 (decodeEhdr (noteFirstFile.take sizeofEhdr))
        [notePhdr, loadPhdr 0 0x100 0] (osGranting 0x10000)).segments[0]? = some 0) := by
  refine ⟨⟨by rfl, by decide, by decide, by decide, by decide⟩, by rfl, by decide, by decide⟩

/-- C19 (amended): whenever `loadEhdrPhdr` and `mapSections` both succeed, the
header announces at least one program header and entry 0 is `PT_LOAD`, index 0
is within the bounds of the `e_phnum`-element arrays `phdrs` and `segments`, and
`segments[0]` is the address recorded at line 96 for entry 0, which is not null
when the reservation base is not null and lies `2 ^ 32` bytes and a page below
the top of the address space. -/
theorem load_index0_in_bounds (pageSize : Nat) (file : Option (List Byte)) (os : Os)
    (ehdr : Elf32_Ehdr) (phdrs : List Elf32_Phdr)
    (hhdr : loadEhdrPhdr file = .ok (ehdr, phdrs))
    (hok : (mapSections pageSize ehdr phdrs os).ok = true)
    (hnum : 0 < ehdr.e_phnum)
    (hload : (phdrAt phdrs 0).p_type = PT_LOAD) :
    phdrs.length = ehdr.e_phnum ∧
    (mapSections pageSize ehdr phdrs os).segments.length = ehdr.e_phnum ∧
    0 < phdrs.length ∧ 0 < (mapSections pageSize ehdr phdrs os).segments.length ∧
    ∃ base, (mapSections pageSize ehdr phdrs os).mapping = some base ∧
      (mapSections pageSize ehdr phdrs os).segments[0]? =
        some (segmentBase pageSize (mapSections pageSize ehdr phdrs os).minAddr base
          (phdrAt phdrs 0)) ∧
      (0 < pageSize → 0 < base → base + U32 + pageSize ≤ UPTR →
        (mapSections pageSize ehdr phdrs os).segments[0]? ≠ some 0) := by
  have hlen := loadEhdrPhdr_ok_length file ehdr phdrs hhdr
  obtain ⟨base, hmap, -, hslen, hseg⟩ := mapSections_ok pageSize ehdr phdrs os hok
  obtain ⟨hmin, -, -, -⟩ := mapSections_of_reserve pageSize ehdr phdrs os
  have h0 := hseg 0 hnum
  simp only [hload, if_true] at h0
  refine ⟨hlen, hslen, by omega, by omega, base, hmap, by rw [h0, hmin], ?_⟩
  intro hp hb hfit
  rw [h0]
  intro hc
  exact segmentBase_pos pageSize _ base _ hp hb hfit (Option.some.inj hc)

set_option maxRecDepth 100000 in
/-- C19 (witness): `sampleFile` announces one `PT_LOAD` entry; after both steps
`segments[0]` is the reservation base `0x10000`. -/
theorem load_index0_in_bounds_witness :
    [loadPhdr 0x81000000 0x112 0].length = (decodeEhdr (sampleFile.take sizeofEhdr)).e_phnum ∧
    (mapSections 4096 (decodeEhdr (sampleFile.take sizeofEhdr)) [loadPhdr 0x81000000 0x112 0]
      (osGranting 0x10000)).segments.length = (decodeEhdr (sampleFile.take sizeofEhdr)).e_phnum ∧
    (mapSections 4096 (decodeEhdr (sampleFile.take sizeofEhdr)) [loadPhdr 0x81000000 0x112 0]
      (osGranting 0x10000)).segments[0]? = some 0x10000 :=
  ⟨(load_index0_in_bounds 4096 (some sampleFile) (osGranting 0x10000)
      (decodeEhdr (sampleFile.take sizeofEhdr)) [loadPhdr 0x81000000 0x112 0]
      (by rfl) (by decide) (by decide) (by decide)).1,
    (load_index0_in_bounds 4096 (some sampleFile) (osGranting 0x10000)
      (decodeEhdr (sampleFile.take sizeofEhdr)) [loadPhdr 0x81000000 0x112 0]
      (by rfl) (by decide) (by decide) (by decide)).2.1,
    by decide⟩

/-! ## Further claims about `loadSelfHeader` -/

theorem importLoop_never_false (L : SceLayout) (m : Mem) (seg0 vaddr0 import_end : Nat)
    (fuel cur : Nat) (acc : List ImportVisit) :
    (importLoop L m seg0 vaddr0 import_end fuel cur acc).2 ≠ .returned false := by
  induction fuel generalizing cur acc with
  | zero =>
    unfold importLoop
    split <;> simp
  | succ fuel ih =>
    unfold importLoop
    split
    · split
      · simp
      · dsimp only
        split
        · simp
        · exact ih _ _
    · simp

theorem importLoop_not_running (L : SceLayout) (m : Mem) (seg0 vaddr0 import_end : Nat)
    (hsize : 0 < L.imports_size) (fuel cur : Nat) (acc : List ImportVisit)
    (hfuel : import_end - cur ≤ fuel) :
    (importLoop L m seg0 vaddr0 import_end fuel cur acc).2 ≠ .running := by
  induction fuel generalizing cur acc with
  | zero =>
    rw [importLoop_done L m seg0 vaddr0 import_end 0 cur acc (by omega)]
    simp
  | succ fuel ih =>
    unfold importLoop
    split
    · split
      · simp
      · dsimp only
        split
        · simp
        · exact ih _ _ (by omega)
    · simp

theorem ceil_div_step (d size : Nat) (hsize : 0 < size) (hd : 0 < d) :
    (d + (size - 1)) / size = (d - size + (size - 1)) / size + 1 := by
  have h1 : d + (size - 1) = (d - 1) + size := by omega
  rw [h1, Nat.add_div_right _ hsize]
  congr 1
  by_cases h : size ≤ d
  · congr 1; omega
  · rw [show d - size = 0 from by omega, Nat.zero_add,
      Nat.div_eq_of_lt (by omega : d - 1 < size), Nat.div_eq_of_lt (by omega : size - 1 < size)]

theorem importLoop_count (L : SceLayout) (m : Mem) (seg0 vaddr0 import_end : Nat)
    (hsize : 0 < L.imports_size) (fuel cur : Nat) (acc : List ImportVisit)
    (hfuel : import_end - cur ≤ fuel)
    (hret : (importLoop L m seg0 vaddr0 import_end fuel cur acc).2 = .returned true) :
    (importLoop L m seg0 vaddr0 import_end fuel cur acc).1.map (fun v => v.desc) =
      acc.map (fun v => v.desc) ++
        (List.range ((import_end - cur + (L.imports_size - 1)) / L.imports_size)).map
          (fun k => cur + k * L.imports_size) := by
  induction fuel generalizing cur acc with
  | zero =>
    rw [importLoop_done L m seg0 vaddr0 import_end 0 cur acc (by omega)]
    rw [show import_end - cur = 0 from by omega, Nat.zero_add,
      Nat.div_eq_of_lt (by omega : L.imports_size - 1 < L.imports_size)]
    simp
  | succ fuel ih =>
    by_cases hlt : cur < import_end
    · cases hb : m.readU32 (cur + L.imports_module_name) with
      | none =>
        rw [importLoop] at hret
        simp [hlt, hb] at hret
      | some b =>
        cases hs : m.readCStr (GG seg0 vaddr0 b) with
        | none =>
          rw [importLoop] at hret
          simp [hlt, hb, hs] at hret
        | some s =>
          rw [importLoop_step L m seg0 vaddr0 import_end fuel cur acc b s hlt hb hs] at hret ⊢
          rw [ih _ _ (by omega) hret]
          rw [ceil_div_step (import_end - cur) L.imports_size hsize (by omega),
            show import_end - cur - L.imports_size = import_end - (cur + L.imports_size) from by omega]
          simp only [List.map_append, List.map_cons, List.map_nil, List.append_assoc,
            List.singleton_append]
          congr 1
          rw [List.range_succ_eq_map]
          simp only [List.map_cons, Nat.zero_mul, Nat.add_zero, List.map_map]
          congr 1
          apply List.map_congr_left
          intro k _
          simp only [Function.comp, Nat.succ_eq_add_one, Nat.add_mul, Nat.one_mul]
          omega
    · rw [importLoop_done L m seg0 vaddr0 import_end _ cur acc hlt]
      rw [show import_end - cur = 0 from by omega, Nat.zero_add,
        Nat.div_eq_of_lt (by omega : L.imports_size - 1 < L.imports_size)]
      simp

theorem ceil_div_past (d size : Nat) (hsize : 0 < size) (hmod : d % size ≠ 0) :
    d < (d + (size - 1)) / size * size := by
  have h1 := Nat.div_add_mod d size
  have h2 := Nat.mod_lt d hsize
  have h3 : (d + (size - 1)) / size = d / size + 1 := by
    have : d + (size - 1) = (d % size - 1) + size * (d / size + 1) := by
      rw [Nat.mul_add, Nat.mul_one]; omega
    rw [this, Nat.add_mul_div_left _ _ hsize, Nat.div_eq_of_lt (by omega), Nat.zero_add]
  rw [h3, Nat.add_mul, Nat.one_mul, Nat.mul_comm]
  omega

theorem importLoop_acc_prefix (L : SceLayout) (m : Mem) (seg0 vaddr0 import_end : Nat)
    (fuel cur : Nat) (acc : List ImportVisit) :
    ∃ rest, (importLoop L m seg0 vaddr0 import_end fuel cur acc).1 = acc ++ rest := by
  induction fuel generalizing cur acc with
  | zero =>
    unfold importLoop
    split <;> exact ⟨[], by simp⟩
  | succ fuel ih =>
    unfold importLoop
    split
    · split
      · exact ⟨[], by simp⟩
      · dsimp only
        split
        · exact ⟨[], by simp⟩
        · rename_i b _ _ s _
          obtain ⟨rest, hrest⟩ := ih (cur + L.imports_size)
            (acc ++ [{ desc := cur, nameAddr := GG seg0 vaddr0 b, name := s }])
          exact ⟨{ desc := cur, nameAddr := GG seg0 vaddr0 b, name := s } :: rest, by
            rw [hrest]; simp⟩
    · exact ⟨[], by simp⟩

/-- The loop walks a run of descriptors whose names can be read, wherever the
array ends. -/
theorem importLoop_prefix (L : SceLayout) (m : Mem) (seg0 vaddr0 import_end : Nat)
    (names : List (List Byte)) (fuel cur : Nat) (acc : List ImportVisit)
    (hfuel : names.length ≤ fuel)
    (hin : ∀ k, k < names.length → cur + k * L.imports_size < import_end)
    (hdesc : ∀ k (hk : k < names.length), ∃ b,
      m.readU32 (cur + k * L.imports_size + L.imports_module_name) = some b ∧
      m.readCStr (GG seg0 vaddr0 b) = some names[k]) :
    ∃ vs : List ImportVisit, vs.map (fun v => v.name) = names ∧
      importLoop L m seg0 vaddr0 import_end fuel cur acc =
        importLoop L m seg0 vaddr0 import_end (fuel - names.length)
          (cur + names.length * L.imports_size) (acc ++ vs) := by
  induction names generalizing fuel cur acc with
  | nil => exact ⟨[], rfl, by simp⟩
  | cons nm rest ih =>
    obtain ⟨fuel, rfl⟩ : ∃ f, fuel = f + 1 := ⟨fuel - 1, by simp at hfuel; omega⟩
    obtain ⟨b, hb, hs⟩ := hdesc 0 (by simp)
    simp only [Nat.zero_mul, Nat.add_zero, List.getElem_cons_zero] at hb hs
    have hlt : cur < import_end := by simpa using hin 0 (by simp)
    obtain ⟨vs, hvs, hrun⟩ := ih fuel (cur + L.imports_size)
      (acc ++ [{ desc := cur, nameAddr := GG seg0 vaddr0 b, name := nm }])
      (by simp at hfuel; omega)
      (by
        intro k hk
        have := hin (k + 1) (by simp; omega)
        rw [Nat.add_mul, Nat.one_mul] at this
        omega)
      (by
        intro k hk
        obtain ⟨b', hb', hs'⟩ := hdesc (k + 1) (by simp; omega)
        refine ⟨b', ?_, ?_⟩
        · rw [← hb']; congr 1
          rw [Nat.add_mul]; omega
        · simpa using hs')
    refine ⟨{ desc := cur, nameAddr := GG seg0 vaddr0 b, name := nm } :: vs, by simp [hvs], ?_⟩
    rw [importLoop_step L m seg0 vaddr0 import_end fuel cur acc b nm hlt hb hs, hrun]
    have e1 : fuel + 1 - (nm :: rest).length = fuel - rest.length := by simp
    have e2 : cur + (nm :: rest).length * L.imports_size =
        cur + L.imports_size + rest.length * L.imports_size := by
      simp only [List.length_cons, Nat.add_mul, Nat.one_mul]; omega
    rw [e1, e2]
    simp

theorem loadSelfHeader_outcome_cases (L : SceLayout) (m : Mem) (ehdr : Elf32_Ehdr)
    (phdrs : List Elf32_Phdr) (segments : List Nat) :
    (loadSelfHeader L m ehdr phdrs segments).outcome = .fault ∨
    ∃ seg0 top fin, (loadSelfHeader L m ehdr phdrs segments).import_top = some top ∧
      (loadSelfHeader L m ehdr phdrs segments).import_end = some fin ∧
      (loadSelfHeader L m ehdr phdrs segments).visits =
        (importLoop L m seg0 (phdrAt phdrs 0).p_vaddr fin (fin - top) top []).1 ∧
      (loadSelfHeader L m ehdr phdrs segments).outcome =
        (importLoop L m seg0 (phdrAt phdrs 0).p_vaddr fin (fin - top) top []).2 := by
  unfold loadSelfHeader
  split
  · left; rfl
  · rename_i seg0 _
    dsimp only
    split
    · left; rfl
    · split
      · left; rfl
      · split
        · left; rfl
        · right
          exact ⟨seg0, _, _, rfl, rfl, rfl, rfl⟩

set_option maxRecDepth 100000 in
/-- C12 (counterexample): with segment 0 mapped at `[0x10000, 0x11000)` and
`e_entry = 0x1040`, the record address `segments[0] + e_entry = 0x11040` lies
past segment 0's mapped extent, in the pages of segment 1; `loadSelfHeader`
reads the module-info record there, logs its name and returns `true`. -/
theorem loadSelfHeader_range_counterexample :
    (mapSections 4096 farEhdr farPhdrs (osGranting 0x10000)).ok = true ∧
    (mapSections 4096 farEhdr farPhdrs (osGranting 0x10000)).segments = [0x10000, 0x11000] ∧
    (mapSections 4096 farEhdr farPhdrs (osGranting 0x10000)).requests =
      [{ idx := 0, addr := 0x10000, len := 0x1000, off := 0 },
       { idx := 1, addr := 0x11000, len := 0x1000, off := 0x1000 }] ∧
    (loadSelfHeader vitaLayout (memOfBytes 0x11000 farSegment) farEhdr farPhdrs
      (mapSections 4096 farEhdr farPhdrs (osGranting 0x10000)).segments).self_info
      = some 0x11040 ∧
    ¬ (0x11040 < 0x10000 + 0x1000) ∧
    (loadSelfHeader vitaLayout (memOfBytes 0x11000 farSegment) farEhdr farPhdrs
      (mapSections 4096 farEhdr farPhdrs (osGranting 0x10000)).segments).libName = some libfoo ∧
    (loadSelfHeader vitaLayout (memOfBytes 0x11000 farSegment) farEhdr farPhdrs
      (mapSections 4096 farEhdr farPhdrs (osGranting 0x10000)).segments).outcome
      = .returned true := by
  decide

/-- C12 (amended): `loadSelfHeader` makes no range check on `e_entry`: it never
returns `false`, and for every mapped image and every `e_entry` it takes
`segments[0] + e_entry` as the address of the module-info record and reads the
record's name there, inside segment 0's mapped extent or not. -/
theorem loadSelfHeader_no_range_check (L : SceLayout) (m : Mem) (ehdr : Elf32_Ehdr)
    (phdrs : List Elf32_Phdr) (segments : List Nat) :
    (loadSelfHeader L m ehdr phdrs segments).outcome ≠ .returned false ∧
    ∀ seg0, segments[0]? = some seg0 →
      (loadSelfHeader L m ehdr phdrs segments).self_info = some ((seg0 + ehdr.e_entry) % UPTR) ∧
      (loadSelfHeader L m ehdr phdrs segments).libName =
        m.readCStr ((seg0 + ehdr.e_entry) % UPTR + L.info_name) := by
  constructor
  · rcases loadSelfHeader_outcome_cases L m ehdr phdrs segments with h | ⟨seg0, top, fin, -, -, -, h⟩
    · rw [h]; simp
    · rw [h]; exact importLoop_never_false _ _ _ _ _ _ _ _
  · intro seg0 hseg
    unfold loadSelfHeader
    simp only [hseg]
    split
    · rename_i h; exact ⟨rfl, h.symm⟩
    · rename_i nm h
      split
      · exact ⟨rfl, h.symm⟩
      · split <;> exact ⟨rfl, h.symm⟩

set_option maxRecDepth 100000 in
/-- C13 (counterexample): the image is the one page `[0x10000, 0x11000)`; the
descriptor at `0x10080` gives the name address `0x81010000`, which resolves to
`0x20000`, outside the image, where other readable memory holds `libc`;
`loadSelfHeader` reads the name there and returns `true`. -/
theorem loadSelfHeader_name_counterexample :
    (mapSections 4096 sampleEhdr [loadPhdr 0x81000000 0xB4 0] (osGranting 0x10000)).mapping
      = some 0x10000 ∧
    (mapSections 4096 sampleEhdr [loadPhdr 0x81000000 0xB4 0] (osGranting 0x10000)).spaceRequired
      = 0x1000 ∧
    (mapSections 4096 sampleEhdr [loadPhdr 0x81000000 0xB4 0] (osGranting 0x10000)).segments
      = [0x10000] ∧
    (loadSelfHeader vitaLayout
      (memOr (memOfBytes 0x10000 strayNameSegment) (memOfBytes 0x20000 (cstr libc)))
      sampleEhdr [loadPhdr 0x81000000 0xB4 0] [0x10000]).visits =
      [{ desc := 0x10080, nameAddr := 0x20000, name := libc }] ∧
    ¬ (0x20000 < 0x10000 + 0x1000) ∧
    (loadSelfHeader vitaLayout
      (memOr (memOfBytes 0x10000 strayNameSegment) (memOfBytes 0x20000 (cstr libc)))
      sampleEhdr [loadPhdr 0x81000000 0xB4 0] [0x10000]).outcome = .returned true := by
  decide

/-- C13 (amended): `loadSelfHeader` makes no bounds check on the module-name
address of a descriptor.  After `N` descriptors whose names are read, a further
descriptor in `[import_top, import_end)` has its name read at
`segments[0] + (module_name - phdrs[0].p_vaddr)` wherever that address lies:
when no string can be read there the run faults with the `N` names logged,
and when a string can be read it is logged as the next name. -/
theorem loadSelfHeader_name_unchecked (L : SceLayout) (m : Mem) (ehdr : Elf32_Ehdr)
    (phdrs : List Elf32_Phdr) (segments : List Nat) (seg0 t e b : Nat) (nm : List Byte)
    (names : List (List Byte))
    (hsize : 0 < L.imports_size)
    (hseg : segments[0]? = some seg0)
    (hname : m.readCStr ((seg0 + ehdr.e_entry) % UPTR + L.info_name) = some nm)
    (htop : m.readU32 ((seg0 + ehdr.e_entry) % UPTR + L.info_import_top) = some t)
    (hend : m.readU32 ((seg0 + ehdr.e_entry) % UPTR + L.info_import_end) = some e)
    (hfit : seg0 + e < UPTR)
    (hin : t + names.length * L.imports_size < e)
    (hdesc : ∀ k (hk : k < names.length), ∃ b',
      m.readU32 (seg0 + t + k * L.imports_size + L.imports_module_name) = some b' ∧
      m.readCStr ((seg0 + (b' + U32 - (phdrAt phdrs 0).p_vaddr) % U32) % UPTR) = some names[k])
    (hb : m.readU32 (seg0 + t + names.length * L.imports_size + L.imports_module_name) = some b) :
    (m.readCStr ((seg0 + (b + U32 - (phdrAt phdrs 0).p_vaddr) % U32) % UPTR) = none →
      (loadSelfHeader L m ehdr phdrs segments).outcome = .fault ∧
      (loadSelfHeader L m ehdr phdrs segments).visits.map (fun v => v.name) = names) ∧
    (∀ s, m.readCStr ((seg0 + (b + U32 - (phdrAt phdrs 0).p_vaddr) % U32) % UPTR) = some s →
      ∃ rest, (loadSelfHeader L m ehdr phdrs segments).visits.map (fun v => v.name) =
        names ++ s :: rest) := by
  rw [loadSelfHeader_walk L m ehdr phdrs segments seg0 t e nm hseg hname htop hend]
  dsimp only
  have hP : UPTR = 18446744073709551616 := rfl
  have hmul : names.length * 1 ≤ names.length * L.imports_size := Nat.mul_le_mul_left _ hsize
  have h1 : G seg0 t = seg0 + t := by
    unfold G
    exact Nat.mod_eq_of_lt (by have := Nat.zero_le (names.length * L.imports_size); omega)
  have h2 : G seg0 e = seg0 + e := by
    unfold G
    exact Nat.mod_eq_of_lt hfit
  rw [h1, h2]
  have hfuel : names.length + 1 ≤ seg0 + e - (seg0 + t) := by omega
  obtain ⟨vs, hvs, hrun⟩ := importLoop_prefix L m seg0 (phdrAt phdrs 0).p_vaddr (seg0 + e) names
    (seg0 + e - (seg0 + t)) (seg0 + t) [] (by omega)
    (by
      intro k hk
      have : k * L.imports_size ≤ names.length * L.imports_size :=
        Nat.mul_le_mul_right _ (Nat.le_of_lt hk)
      omega)
    hdesc
  rw [hrun]
  obtain ⟨f, hf⟩ : ∃ f, seg0 + e - (seg0 + t) - names.length = f + 1 :=
    ⟨seg0 + e - (seg0 + t) - names.length - 1, by omega⟩
  rw [hf]
  have hlt : seg0 + t + names.length * L.imports_size < seg0 + e := by omega
  constructor
  · intro hnone
    rw [importLoop]
    have hnone' : m.readCStr (GG seg0 (phdrAt phdrs 0).p_vaddr b) = none := hnone
    simp [hlt, hb, hnone', hvs]
  · intro s hs
    have hs' : m.readCStr (GG seg0 (phdrAt phdrs 0).p_vaddr b) = some s := hs
    rw [importLoop_step L m seg0 _ _ f _ _ b s hlt hb hs']
    obtain ⟨rest, hrest⟩ := importLoop_acc_prefix L m seg0 (phdrAt phdrs 0).p_vaddr (seg0 + e) f
      (seg0 + t + names.length * L.imports_size + L.imports_size)
      ([] ++ vs ++ [ImportVisit.mk (seg0 + t + names.length * L.imports_size)
        (GG seg0 (phdrAt phdrs 0).p_vaddr b) s])
    rw [hrest]
    exact ⟨rest.map (fun v => v.name), by simp [hvs]⟩

set_option maxRecDepth 100000 in
/-- C13 (witness): in `brokenNameSegment` the first descriptor names `libc` and
the second gives an address where nothing is mapped; the run logs `libc` and
faults. -/
theorem loadSelfHeader_name_unchecked_witness :
    (loadSelfHeader vitaLayout (memOfBytes 0x10000 brokenNameSegment) sampleEhdr
      [loadPhdr 0x81000000 0x112 0] [0x10000]).outcome = .fault ∧
    (loadSelfHeader vitaLayout (memOfBytes 0x10000 brokenNameSegment) sampleEhdr
      [loadPhdr 0x81000000 0x112 0] [0x10000]).visits.map (fun v => v.name) = [libc] :=
  (loadSelfHeader_name_unchecked vitaLayout (memOfBytes 0x10000 brokenNameSegment) sampleEhdr
    [loadPhdr 0x81000000 0x112 0] [0x10000] 0x10000 0x80 0xE8 0x81010000 libfoo [libc]
    (by decide) (by rfl) (by decide) (by decide) (by decide) (by decide) (by decide)
    (by
      intro k hk
      have hk1 : k < 1 := hk
      interval_cases k
      exact ⟨0x81000100, by decide, by rfl⟩)
    (by decide)).1 (by decide)

/-- C18: the import loop of `loadSelfHeader` never runs on: a run returns or
faults.  When it returns, the number of descriptors visited is
`ceil((import_end - import_top) / sizeof(descriptor))`, which is `0` when
`import_end <= import_top`; the descriptors visited are those at
`import_top + k * sizeof(descriptor)` in ascending order; and when
`import_end - import_top` is not a multiple of the size the last one visited
ends past `import_end`. -/
theorem loadSelfHeader_loop_count (L : SceLayout) (m : Mem) (ehdr : Elf32_Ehdr)
    (phdrs : List Elf32_Phdr) (segments : List Nat) (hsize : 0 < L.imports_size) :
    (loadSelfHeader L m ehdr phdrs segments).outcome ≠ .running ∧
    ∀ top fin, (loadSelfHeader L m ehdr phdrs segments).import_top = some top →
      (loadSelfHeader L m ehdr phdrs segments).import_end = some fin →
      (loadSelfHeader L m ehdr phdrs segments).outcome = .returned true →
      (loadSelfHeader L m ehdr phdrs segments).visits.length =
        (fin - top + (L.imports_size - 1)) / L.imports_size ∧
      (loadSelfHeader L m ehdr phdrs segments).visits.map (fun v => v.desc) =
        (List.range ((fin - top + (L.imports_size - 1)) / L.imports_size)).map
          (fun k => top + k * L.imports_size) ∧
      (fin ≤ top → (loadSelfHeader L m ehdr phdrs segments).visits = []) ∧
      ((fin - top) % L.imports_size ≠ 0 →
        fin < top + (loadSelfHeader L m ehdr phdrs segments).visits.length * L.imports_size) := by
  rcases loadSelfHeader_outcome_cases L m ehdr phdrs segments with
    h | ⟨seg0, top', fin', htop, hfin, hvis, hout⟩
  · refine ⟨by rw [h]; simp, ?_⟩
    intro top fin _ _ hret
    rw [h] at hret
    cases hret
  · refine ⟨by rw [hout]; exact importLoop_not_running L m seg0 _ _ hsize _ _ _ (Nat.le_refl _), ?_⟩
    intro top fin ht hf hret
    rw [htop] at ht
    rw [hfin] at hf
    cases ht
    cases hf
    rw [hout] at hret
    have hdesc := importLoop_count L m seg0 _ fin' hsize _ top' [] (Nat.le_refl _) hret
    rw [← hvis] at hdesc
    simp only [List.map_nil, List.nil_append] at hdesc
    have hlen : (loadSelfHeader L m ehdr phdrs segments).visits.length =
        (fin' - top' + (L.imports_size - 1)) / L.imports_size := by
      have := congrArg List.length hdesc
      simpa using this
    refine ⟨hlen, hdesc, ?_, ?_⟩
    · intro hle
      apply List.eq_nil_of_length_eq_zero
      rw [hlen, show fin' - top' = 0 from by omega, Nat.zero_add]
      exact Nat.div_eq_of_lt (by omega)
    · intro hmod
      rw [hlen]
      have := ceil_div_past (fin' - top') L.imports_size hsize hmod
      omega

set_option maxRecDepth 100000 in
/-- C18 (witness): in `raggedSegment` the array spans `0x40` bytes, which is not
a multiple of the descriptor size 52; the loop visits two descriptors and the
second one ends at `0x100E8`, past `import_end = 0x100C0`. -/
theorem loadSelfHeader_loop_count_witness :
    (loadSelfHeader vitaLayout (memOfBytes 0x10000 raggedSegment) sampleEhdr
      [loadPhdr 0x81000000 0x112 0] [0x10000]).outcome = .returned true ∧
    (loadSelfHeader vitaLayout (memOfBytes 0x10000 raggedSegment) sampleEhdr
      [loadPhdr 0x81000000 0x112 0] [0x10000]).visits.length =
      (0x100C0 - 0x10080 + (vitaLayout.imports_size - 1)) / vitaLayout.imports_size ∧
    (loadSelfHeader vitaLayout (memOfBytes 0x10000 raggedSegment) sampleEhdr
      [loadPhdr 0x81000000 0x112 0] [0x10000]).visits.length = 2 :=
  ⟨by decide,
    ((loadSelfHeader_loop_count vitaLayout (memOfBytes 0x10000 raggedSegment) sampleEhdr
      [loadPhdr 0x81000000 0x112 0] [0x10000] (by decide)).2 0x10080 0x100C0
      (by decide) (by decide) (by decide)).1,
    by decide⟩

/-! ## Further claims about `loadEhdrPhdr` and `load` -/

theorem take_drop_past_ident (f : List Byte) (off : Nat) (h : 16 ≤ off) :
    (f.take sizeofEhdr).drop off = ((f.drop 16).drop (off - 16)).take (sizeofEhdr - off) := by
  rw [List.drop_take, List.drop_drop]
  congr 2
  omega

theorem fieldAt_past_ident (f1 f2 : List Byte) (hrest : f1.drop 16 = f2.drop 16) (off n : Nat)
    (h : 16 ≤ off) :
    fieldAt (f1.take sizeofEhdr) off n = fieldAt (f2.take sizeofEhdr) off n := by
  unfold fieldAt
  rw [take_drop_past_ident f1 off h, take_drop_past_ident f2 off h, hrest]

theorem readAt_past_ident (f1 f2 : List Byte) (hrest : f1.drop 16 = f2.drop 16) (off n : Nat)
    (h : 16 ≤ off) : readAt f1 off n = readAt f2 off n := by
  unfold readAt
  have e1 : f1.drop off = (f1.drop 16).drop (off - 16) := by
    rw [List.drop_drop]; congr 1; omega
  have e2 : f2.drop off = (f2.drop 16).drop (off - 16) := by
    rw [List.drop_drop]; congr 1; omega
  rw [e1, e2, hrest]

theorem phdrOff_past_ident (f1 f2 : List Byte) (hrest : f1.drop 16 = f2.drop 16) (i : Nat) :
    phdrOff (decodeEhdr (f1.take sizeofEhdr)) i = phdrOff (decodeEhdr (f2.take sizeofEhdr)) i := by
  unfold phdrOff decodeEhdr
  dsimp only
  rw [fieldAt_past_ident f1 f2 hrest 28 4 (by decide), fieldAt_past_ident f1 f2 hrest 42 2 (by decide)]

theorem phnum_past_ident (f1 f2 : List Byte) (hrest : f1.drop 16 = f2.drop 16) :
    (decodeEhdr (f1.take sizeofEhdr)).e_phnum = (decodeEhdr (f2.take sizeofEhdr)).e_phnum := by
  unfold decodeEhdr
  dsimp only
  exact fieldAt_past_ident f1 f2 hrest 44 2 (by decide)

theorem readPhdrs_error_congr (f1 f2 : List Byte) (e1 e2 : Elf32_Ehdr)
    (hread : ∀ i, PhdrReadable f1 e1 i ↔ PhdrReadable f2 e2 i) (l : List Nat)
    (acc1 acc2 : List Elf32_Phdr) (e : LoadError) :
    readPhdrs f1 e1 l acc1 = .error e ↔ readPhdrs f2 e2 l acc2 = .error e := by
  induction l generalizing acc1 acc2 with
  | nil => simp [readPhdrs]
  | cons i rest ih =>
    by_cases hi : PhdrReadable f1 e1 i
    · rw [readPhdrs_cons_ok f1 e1 i rest acc1 hi,
        readPhdrs_cons_ok f2 e2 i rest acc2 ((hread i).mp hi)]
      exact ih _ _
    · rw [readPhdrs_cons_error f1 e1 i rest acc1 hi,
        readPhdrs_cons_error f2 e2 i rest acc2 (fun hc => hi ((hread i).mpr hc))]

theorem loadEhdrPhdr_error_iff (file : List Byte) (h : sizeofEhdr ≤ file.length) (e : LoadError) :
    loadEhdrPhdr (some file) = .error e ↔
      readPhdrs file (decodeEhdr (file.take sizeofEhdr))
        (List.range (decodeEhdr (file.take sizeofEhdr)).e_phnum) [] = .error e := by
  rw [loadEhdrPhdr_some file h]
  cases readPhdrs file (decodeEhdr (file.take sizeofEhdr))
      (List.range (decodeEhdr (file.take sizeofEhdr)).e_phnum) [] with
  | error e' => simp
  | ok ps => simp

theorem loadEhdrPhdr_ok_entries (file : List Byte) (ehdr : Elf32_Ehdr) (phdrs : List Elf32_Phdr)
    (h : loadEhdrPhdr (some file) = .ok (ehdr, phdrs)) :
    sizeofEhdr ≤ file.length ∧ ehdr = decodeEhdr (file.take sizeofEhdr) ∧
    phdrs = (List.range ehdr.e_phnum).map
      (fun i => decodePhdr (readAt file (phdrOff ehdr i) sizeofPhdr)) := by
  by_cases hlen : sizeofEhdr ≤ file.length
  · rw [loadEhdrPhdr_some file hlen] at h
    split at h
    · cases h
    · rename_i ps hps
      simp only [Except.ok.injEq, Prod.mk.injEq] at h
      obtain ⟨he, hp⟩ := h
      subst he hp
      have hall := readPhdrs_ok_inv file _ _ [] ps hps
      rw [readPhdrs_all file _ _ [] hall] at hps
      simp only [Except.ok.injEq, List.nil_append] at hps
      exact ⟨hlen, rfl, hps.symm⟩
  · rw [loadEhdrPhdr_short file (by omega)] at h
    cases h

set_option maxRecDepth 100000 in
/-- C15 (counterexample): `selfOverlapFile` and `selfOverlapFileMagic` have
the same length and differ only in the first identification byte; their
headers place program header 0 at file offset 0, so both load and entry 0
is decoded from the header bytes, with `p_type` `0` in one file and `0x7f` in
the other. -/
theorem loadEhdrPhdr_ident_counterexample :
    selfOverlapFile.length = selfOverlapFileMagic.length ∧
    selfOverlapFile.drop 1 = selfOverlapFileMagic.drop 1 ∧
    ∃ e1 p1 e2 p2, loadEhdrPhdr (some selfOverlapFile) = .ok (e1, p1) ∧
      loadEhdrPhdr (some selfOverlapFileMagic) = .ok (e2, p2) ∧
      (p1.map (fun p => p.p_type) = [0] ∧ p2.map (fun p => p.p_type) = [0x7f]) ∧ p1 ≠ p2 :=
  ⟨by decide, by decide,
    decodeEhdr selfOverlapFile, [decodePhdr (selfOverlapFile.take 32)],
    decodeEhdr selfOverlapFileMagic, [decodePhdr (selfOverlapFileMagic.take 32)],
    by rfl, by rfl, ⟨by decide, by decide⟩, by decide⟩

/-- C15 (amended): `loadEhdrPhdr` does not look at the identification bytes:
for two files of equal length that differ only within the sixteen `e_ident`
bytes it returns the same success value (the same failure, or success for
both), the same number of program-header entries, and the same entry `i` for
every `i` whose record is read from file offset 16 or above. -/
theorem loadEhdrPhdr_ident_blind (f1 f2 : List Byte) (hlen : f1.length = f2.length)
    (hrest : f1.drop 16 = f2.drop 16) :
    (∀ e, loadEhdrPhdr (some f1) = .error e ↔ loadEhdrPhdr (some f2) = .error e) ∧
    ∀ e1 p1 e2 p2, loadEhdrPhdr (some f1) = .ok (e1, p1) →
      loadEhdrPhdr (some f2) = .ok (e2, p2) →
      e1.e_phnum = e2.e_phnum ∧ p1.length = p2.length ∧
      ∀ i, i < e1.e_phnum → 16 ≤ phdrOff e1 i → p1[i]? = p2[i]? := by
  have hread : ∀ i, PhdrReadable f1 (decodeEhdr (f1.take sizeofEhdr)) i ↔
      PhdrReadable f2 (decodeEhdr (f2.take sizeofEhdr)) i := by
    intro i
    unfold PhdrReadable
    rw [phdrOff_past_ident f1 f2 hrest i, hlen]
  constructor
  · intro e
    by_cases h : sizeofEhdr ≤ f1.length
    · rw [loadEhdrPhdr_error_iff f1 h, loadEhdrPhdr_error_iff f2 (by omega),
        phnum_past_ident f1 f2 hrest]
      exact readPhdrs_error_congr f1 f2 _ _ hread _ _ _ e
    · rw [loadEhdrPhdr_short f1 (by omega), loadEhdrPhdr_short f2 (by omega)]
  · intro e1 p1 e2 p2 h1 h2
    obtain ⟨-, he1, hp1⟩ := loadEhdrPhdr_ok_entries f1 e1 p1 h1
    obtain ⟨-, he2, hp2⟩ := loadEhdrPhdr_ok_entries f2 e2 p2 h2
    have hnum : e1.e_phnum = e2.e_phnum := by
      rw [he1, he2]; exact phnum_past_ident f1 f2 hrest
    refine ⟨hnum, by rw [hp1, hp2]; simp [hnum], ?_⟩
    intro i hi hoff
    have hoff2 : phdrOff e1 i = phdrOff e2 i := by
      rw [he1, he2]; exact phdrOff_past_ident f1 f2 hrest i
    rw [hp1, hp2]
    simp only [List.getElem?_map, List.getElem?_range hi, List.getElem?_range (hnum ▸ hi),
      Option.map_some']
    rw [← hoff2, readAt_past_ident f1 f2 hrest _ _ hoff]

set_option maxRecDepth 100000 in
/-- C15 (witness): `twoPhdrFile` and a copy with the ELF magic written into
the first four bytes load to the same second entry. -/
theorem loadEhdrPhdr_ident_blind_witness :
    ([loadPhdr 0 0x100 0x234, loadPhdr 0x1000 0x50 0x1234] : List Elf32_Phdr)[1]? =
      ([loadPhdr 0 0x100 0x234, loadPhdr 0x1000 0x50 0x1234] : List Elf32_Phdr)[1]? ∧
    loadEhdrPhdr (some ([0x7f, 0x45, 0x4c, 0x46] ++ twoPhdrFile.drop 4)) =
      .ok (decodeEhdr (([0x7f, 0x45, 0x4c, 0x46] ++ twoPhdrFile.drop 4).take sizeofEhdr),
        [loadPhdr 0 0x100 0x234, loadPhdr 0x1000 0x50 0x1234]) :=
  ⟨((loadEhdrPhdr_ident_blind twoPhdrFile ([0x7f, 0x45, 0x4c, 0x46] ++ twoPhdrFile.drop 4)
      (by decide) (by decide)).2
      (decodeEhdr (twoPhdrFile.take sizeofEhdr))
      [loadPhdr 0 0x100 0x234, loadPhdr 0x1000 0x50 0x1234]
      (decodeEhdr (([0x7f, 0x45, 0x4c, 0x46] ++ twoPhdrFile.drop 4).take sizeofEhdr))
      [loadPhdr 0 0x100 0x234, loadPhdr 0x1000 0x50 0x1234]
      (by rfl) (by rfl)).2.2 1 (by decide) (by decide),
    by rfl⟩

/-- C16: `load` returns `true` exactly when `loadEhdrPhdr`, then `mapSections`
on its result, then `loadSelfHeader` on the result of both all return `true`;
when `loadEhdrPhdr` fails neither of the other two is run, and when
`mapSections` returns `false` the function `loadSelfHeader` is not run; in both
cases `load` returns `false`. -/
theorem load_true_iff (pageSize : Nat) (L : SceLayout) (file : Option (List Byte)) (os : Os)
    (memAfter : MapResult → Mem) :
    ((load pageSize L file os memAfter).outcome = .returned true ↔
      ∃ ehdr phdrs, loadEhdrPhdr file = .ok (ehdr, phdrs) ∧
        (mapSections pageSize ehdr phdrs os).ok = true ∧
        (loadSelfHeader L (memAfter (mapSections pageSize ehdr phdrs os)) ehdr phdrs
          (mapSections pageSize ehdr phdrs os).segments).outcome = .returned true) ∧
    (∀ e, loadEhdrPhdr file = .error e →
      (load pageSize L file os memAfter).map = none ∧
      (load pageSize L file os memAfter).self = none ∧
      (load pageSize L file os memAfter).outcome = .returned false) ∧
    (∀ ehdr phdrs, loadEhdrPhdr file = .ok (ehdr, phdrs) →
      (load pageSize L file os memAfter).map = some (mapSections pageSize ehdr phdrs os) ∧
      ((mapSections pageSize ehdr phdrs os).ok = false →
        (load pageSize L file os memAfter).self = none ∧
        (load pageSize L file os memAfter).outcome = .returned false) ∧
      ((mapSections pageSize ehdr phdrs os).ok = true →
        (load pageSize L file os memAfter).self =
          some (loadSelfHeader L (memAfter (mapSections pageSize ehdr phdrs os)) ehdr phdrs
            (mapSections pageSize ehdr phdrs os).segments))) := by
  unfold load
  cases hh : loadEhdrPhdr file with
  | error e => simp
  | ok r =>
    obtain ⟨ehdr, phdrs⟩ := r
    dsimp only
    by_cases hok : (mapSections pageSize ehdr phdrs os).ok = true
    · simp only [hok, Bool.true_eq_false, if_false]
      refine ⟨?_, by simp, ?_⟩
      · constructor
        · intro h
          refine ⟨ehdr, phdrs, rfl, hok, ?_⟩
          revert h
          cases (loadSelfHeader L (memAfter (mapSections pageSize ehdr phdrs os)) ehdr phdrs
            (mapSections pageSize ehdr phdrs os).segments).outcome with
          | returned b => cases b <;> simp
          | fault => simp
          | running => simp
        · rintro ⟨ehdr', phdrs', heq, -, hs⟩
          simp only [Except.ok.injEq, Prod.mk.injEq] at heq
          obtain ⟨rfl, rfl⟩ := heq
          rw [hs]
          simp
      · intro ehdr' phdrs' heq
        simp only [Except.ok.injEq, Prod.mk.injEq] at heq
        obtain ⟨rfl, rfl⟩ := heq
        simp [hok]
    · have hok' : (mapSections pageSize ehdr phdrs os).ok = false := by simpa using hok
      simp only [hok', if_true]
      refine ⟨?_, by simp, ?_⟩
      · constructor
        · intro h; simp at h
        · rintro ⟨ehdr', phdrs', heq, hok2, -⟩
          simp only [Except.ok.injEq, Prod.mk.injEq] at heq
          obtain ⟨rfl, rfl⟩ := heq
          rw [hok'] at hok2
          cases hok2
      · intro ehdr' phdrs' heq
        simp only [Except.ok.injEq, Prod.mk.injEq] at heq
        obtain ⟨rfl, rfl⟩ := heq
        simp [hok']

set_option maxRecDepth 100000 in
/-- C16 (witness): `sampleFile` loads, its segment is mapped at `0x10000`, and
the walk over `sampleMem` returns `true`, so `load` returns `true`. -/
theorem load_true_iff_witness :
    (load 4096 vitaLayout (some sampleFile) (osGranting 0x10000) (fun _ => sampleMem)).outcome
      = .returned true :=
  (load_true_iff 4096 vitaLayout (some sampleFile) (osGranting 0x10000)
    (fun _ => sampleMem)).1.mpr
    ⟨decodeEhdr (sampleFile.take sizeofEhdr), [loadPhdr 0x81000000 0x112 0], by rfl, by decide,
      by decide⟩

/-! ## Program-header offsets past `2 ^ 32` -/

/-- On a file that holds `wrapHeader` and enough zero bytes for entry 0,
`loadEhdrPhdr` succeeds: entry 0 is read at `0xFFFFFFF0` and entry 1 at the
wrapped offset `0x10`, inside the header. -/
theorem loadEhdrPhdr_padded (n : Nat) (hn : 0xFFFFFFF0 + 32 ≤ 52 + n) :
    loadEhdrPhdr (some (paddedFile wrapHeader n)) =
      .ok (decodeEhdr wrapHeader,
        [decodePhdr (List.replicate 32 0), decodePhdr ((wrapHeader.drop 16).take 32)]) := by
  have hlen : wrapHeader.length = 52 := by decide
  have hflen : (paddedFile wrapHeader n).length = 52 + n := by
    unfold paddedFile
    rw [List.length_append, List.length_replicate, hlen]
  have htake : (paddedFile wrapHeader n).take sizeofEhdr = wrapHeader := by
    unfold paddedFile
    exact List.take_left' hlen
  have hnum : (decodeEhdr wrapHeader).e_phnum = 2 := by decide
  have hoff0 : phdrOff (decodeEhdr wrapHeader) 0 = 0xFFFFFFF0 := by decide
  have hoff1 : phdrOff (decodeEhdr wrapHeader) 1 = 0x10 := by decide
  have hS : sizeofPhdr = 32 := rfl
  rw [loadEhdrPhdr_some _ (by rw [hflen]; unfold sizeofEhdr; omega), htake, hnum]
  have hall : ∀ i ∈ List.range 2, PhdrReadable (paddedFile wrapHeader n) (decodeEhdr wrapHeader) i := by
    intro i hi
    have hi2 : i < 2 := List.mem_range.mp hi
    unfold PhdrReadable
    rw [hflen, hS]
    interval_cases i
    · rw [hoff0]; omega
    · rw [hoff1]; omega
  rw [readPhdrs_all _ _ _ [] hall]
  have hr0 : readAt (paddedFile wrapHeader n) 0xFFFFFFF0 32 = List.replicate 32 0 := by
    unfold readAt paddedFile
    have h1 := @List.drop_append _ wrapHeader (List.replicate n (0 : Byte)) 4294967228
    rw [hlen] at h1
    have h2 : List.drop 4294967280 (wrapHeader ++ List.replicate n (0 : Byte)) =
        List.drop 4294967228 (List.replicate n 0) := h1
    rw [h2, List.drop_replicate, List.take_replicate, Nat.min_eq_left (by omega)]
  have hr1 : readAt (paddedFile wrapHeader n) 0x10 32 = (wrapHeader.drop 16).take 32 := by
    unfold readAt paddedFile
    rw [List.drop_append_of_le_length (by rw [hlen]; omega),
      List.take_append_of_le_length (by rw [List.length_drop, hlen]; omega)]
  show (Except.ok (decodeEhdr wrapHeader, [] ++ List.map _ (List.range 2)) : Except LoadError _) = _
  rw [show List.range 2 = [0, 1] from rfl]
  simp only [List.map_cons, List.map_nil, List.nil_append, hoff0, hoff1, hS, hr0, hr1]

theorem paddedFile_length (n : Nat) : (paddedFile wrapHeader n).length = 52 + n := by
  unfold paddedFile
  rw [List.length_append, List.length_replicate, show wrapHeader.length = 52 from by decide]

/-- C9 (counterexample): the file holds `wrapHeader` and zero bytes up to
length `0x100000010`.  Entry 0 lies at `0xFFFFFFF0`, and the offset
`e_phoff + 1 * e_phentsize = 0x100000010` of entry 1 is the end of the file, so
no record can be read there; but line 54 computes the offset in `unsigned int`,
as `0x10`, and `loadEhdrPhdr` succeeds. -/
theorem loadEhdrPhdr_failure_counterexample :
    (paddedFile wrapHeader 4294967260).length = 0x100000010 ∧
    (decodeEhdr wrapHeader).e_phnum = 2 ∧
    (decodeEhdr wrapHeader).e_phoff + 1 * (decodeEhdr wrapHeader).e_phentsize = 0x100000010 ∧
    ¬ ((decodeEhdr wrapHeader).e_phoff + 1 * (decodeEhdr wrapHeader).e_phentsize + sizeofPhdr ≤
      (paddedFile wrapHeader 4294967260).length) ∧
    phdrOff (decodeEhdr wrapHeader) 1 = 0x10 ∧
    ∃ phdrs, loadEhdrPhdr (some (paddedFile wrapHeader 4294967260)) =
      .ok (decodeEhdr wrapHeader, phdrs) := by
  refine ⟨paddedFile_length _, by decide, by decide, ?_, by decide,
    ⟨_, loadEhdrPhdr_padded 4294967260 (by decide)⟩⟩
  rw [paddedFile_length, show (decodeEhdr wrapHeader).e_phoff = 0xFFFFFFF0 from by decide,
    show (decodeEhdr wrapHeader).e_phentsize = 32 from by decide]
  decide

/-- C10 (counterexample): the file holds `wrapHeader` and zero bytes up to
length `0x100000030`, so a full record of zero bytes lies at the offset
`e_phoff + 1 * e_phentsize = 0x100000010` of entry 1; `loadEhdrPhdr` succeeds,
but line 54 computes the offset in `unsigned int`, as `0x10`, and entry 1 is
the decoding of the header bytes 16 to 47, with `p_paddr = 0xFFFFFFF0`. -/
theorem loadEhdrPhdr_entries_counterexample :
    (paddedFile wrapHeader 4294967292).length = 0x100000030 ∧
    (decodeEhdr wrapHeader).e_phoff + 1 * (decodeEhdr wrapHeader).e_phentsize = 0x100000010 ∧
    decodePhdr (((paddedFile wrapHeader 4294967292).drop 0x100000010).take sizeofPhdr) = default ∧
    ∃ phdrs, loadEhdrPhdr (some (paddedFile wrapHeader 4294967292)) =
        .ok (decodeEhdr wrapHeader, phdrs) ∧
      phdrs[1]? = some { p_type := 0, p_offset := 0, p_vaddr := 0, p_paddr := 0xFFFFFFF0,
                         p_filesz := 0, p_memsz := 0, p_flags := 0x200034, p_align := 2 } ∧
      phdrs[1]? ≠ some default := by
  refine ⟨paddedFile_length _, by decide, ?_, ⟨_, loadEhdrPhdr_padded 4294967292 (by decide),
    by decide, by decide⟩⟩
  have h1 := @List.drop_append _ wrapHeader (List.replicate 4294967292 (0 : Byte)) 4294967260
  rw [show wrapHeader.length = 52 from by decide] at h1
  have h2 : List.drop 0x100000010 (paddedFile wrapHeader 4294967292) =
      List.drop 4294967260 (List.replicate 4294967292 0) := h1
  rw [h2, List.drop_replicate, List.take_replicate]
  decide

/-- An offset that stays below `2 ^ 32` is computed by line 54 as the plain
sum. -/
theorem phdrOff_eq_of_lt (ehdr : Elf32_Ehdr) (i : Nat)
    (h : ehdr.e_phoff + i * ehdr.e_phentsize < U32) :
    phdrOff ehdr i = ehdr.e_phoff + i * ehdr.e_phentsize :=
  Nat.mod_eq_of_lt h

end Kat
